import Mathlib

/-!
Verification of the wrfs capability-dispatch layer.

This file is a shallow embedding of the wrfs package (Go). The dispatch
functions (Chmod, Chown, Chtimes, Truncate, OpenFile, Remove, RemoveAll,
Mkdir, MkdirAll, Sub and the sub-view adapter) are translated from the Go
source. The underlying filesystem (the external collaborator of the spec:
Open, Stat, ReadDir and the optional capability methods) is modelled as
data: a record of optional methods for the dispatch claims, and an
in-memory path-keyed store for the fallback-algorithm claims. Go strings
are modelled as Lean strings (lists of characters); byte indexing in the
source coincides with character indexing on the ASCII paths used
throughout. Go `defer` is translated by placing the deferred action on
every exit path that the source reaches after the `defer` statement; a
method call on a nil interface value is translated as a `panic` outcome.
-/

namespace Wrfs

/-- Error causes. `errUnsupported` embeds the sentinel
`var ErrUnsupported = errors.New("unsupported operation")` and
`errNotSupported` embeds the distinct sentinel
`var ErrNotSupported = errors.New("operation not supported")`; the two
`errors.New` calls in the source produce distinct error values, which is
why they are distinct constructors here. -/
inductive Err where
  | errUnsupported
  | errNotSupported
  | errNotExist
  | errExist
  | enotdir
  | enotempty
  | errPermission
  | invalidName
  | other (msg : String)
deriving Repr, DecidableEq

/-- Structured Go errors: `fs.PathError` carries an operation, a path and a
cause; `plain` is a bare error value (such as returning a sentinel
directly). -/
inductive GoError where
  | pathError (op : String) (path : String) (cause : Err)
  | plain (cause : Err)
deriving Repr, DecidableEq

/-- Result of running a Go function: a normal return or a runtime panic
(a method call on a nil interface value panics in Go). -/
inductive Outcome (α : Type) where
  | ret (a : α)
  | panic (msg : String)
deriving Repr, DecidableEq

/-- Observable events on the modelled filesystem: which underlying methods
a dispatch function invoked, in order. -/
inductive Ev where
  | openCall (name : String)
  | openFileCall (name : String) (flag : Int)
  | nativeCall (op : String) (name : String)
  | handleCall (op : String)
  | closeCall
deriving Repr, DecidableEq

/-- Model of an open file handle: the optional handle-scoped capability
methods (ChmodFile, ChownFile, ChtimesFile, TruncateFile), each returning
the error the method would produce, and the result of Close. -/
structure MFile where
  chmodFile : Option (Nat → Option GoError)
  chownFile : Option (Int → Int → Option GoError)
  chtimesFile : Option (Int → Int → Option GoError)
  truncFile : Option (Int → Option GoError)
  closeF : Option GoError

/-- Model of a filesystem value: the optional whole-filesystem capability
methods (ChmodFS, ChownFS, ChtimesFS, TruncateFS, OpenFileFS) and the core
Open method. Open returns a pair (file, error) exactly like the Go
signature; a contract-respecting filesystem returns either (some f, none)
or (none, some e). -/
structure MFS where
  chmodFS : Option (String → Nat → Option GoError)
  chownFS : Option (String → Int → Int → Option GoError)
  chtimesFS : Option (String → Int → Int → Option GoError)
  truncateFS : Option (String → Int → Option GoError)
  openFileFS : Option (String → Int → Nat → Option MFile × Option GoError)
  openF : String → Option MFile × Option GoError

/-- safeClose closes an io.Closer and stores the error in errPtr, but does
not overwrite an existing error: the final value of the error variable is
the prior error if there was one, otherwise the Close result. -/
def safeClose (closeRes : Option GoError) (errPtr : Option GoError) : Option GoError :=
  match errPtr with
  | some e => some e
  | none => closeRes

/-- Chmod dispatch (fs.go). Whole-filesystem ChmodFS first; otherwise open
the file, try the ChmodFile capability, and close via a bare
`defer file.Close()` whose error is discarded (the function has an unnamed
error return). If Open returns (nil, nil), the deferred Close on the nil
handle panics. -/
def Chmod (fsys : MFS) (name : String) (mode : Nat) : Outcome (Option GoError) × List Ev :=
  match fsys.chmodFS with
  | some m => (Outcome.ret (m name mode), [Ev.nativeCall "chmod" name])
  | none =>
    match fsys.openF name with
    | (_, some e) => (Outcome.ret (some e), [Ev.openCall name])
    | (some file, none) =>
      match file.chmodFile with
      | some fm =>
        (Outcome.ret (fm mode), [Ev.openCall name, Ev.handleCall "chmod", Ev.closeCall])
      | none =>
        (Outcome.ret (some (GoError.pathError "chmod" name Err.errNotSupported)),
         [Ev.openCall name, Ev.closeCall])
    | (none, none) => (Outcome.panic "nil handle", [Ev.openCall name])

/-- Chown dispatch (chown.go). Whole-filesystem ChownFS first; otherwise
open, try ChownFile, and close via `defer safeClose(file, &err)` which is
registered after the open-error check. -/
def Chown (fsys : MFS) (name : String) (uid gid : Int) : Outcome (Option GoError) × List Ev :=
  match fsys.chownFS with
  | some m => (Outcome.ret (m name uid gid), [Ev.nativeCall "chown" name])
  | none =>
    match fsys.openF name with
    | (_, some e) => (Outcome.ret (some e), [Ev.openCall name])
    | (some file, none) =>
      match file.chownFile with
      | some fm =>
        (Outcome.ret (safeClose file.closeF (fm uid gid)),
         [Ev.openCall name, Ev.handleCall "chown", Ev.closeCall])
      | none =>
        (Outcome.ret (safeClose file.closeF (some (GoError.pathError "chown" name Err.errNotSupported))),
         [Ev.openCall name, Ev.closeCall])
    | (none, none) => (Outcome.panic "nil handle", [Ev.openCall name])

/-- Chtimes dispatch (chtimes.go). Whole-filesystem ChtimesFS first;
otherwise the source registers `defer safeClose(file, &err)` BEFORE
checking the error from Open, so when Open fails with a nil handle the
deferred Close is invoked on the nil interface and panics. -/
def Chtimes (fsys : MFS) (name : String) (atime mtime : Int) : Outcome (Option GoError) × List Ev :=
  match fsys.chtimesFS with
  | some m => (Outcome.ret (m name atime mtime), [Ev.nativeCall "chtimes" name])
  | none =>
    match fsys.openF name with
    | (none, _) => (Outcome.panic "nil handle", [Ev.openCall name])
    | (some file, some e) =>
      (Outcome.ret (safeClose file.closeF (some e)), [Ev.openCall name, Ev.closeCall])
    | (some file, none) =>
      match file.chtimesFile with
      | some fm =>
        (Outcome.ret (safeClose file.closeF (fm atime mtime)),
         [Ev.openCall name, Ev.handleCall "chtimes", Ev.closeCall])
      | none =>
        (Outcome.ret (safeClose file.closeF (some (GoError.pathError "chtimes" name Err.errNotSupported))),
         [Ev.openCall name, Ev.closeCall])

def O_RDONLY : Int := 0

def O_WRONLY : Int := 1

/-- OpenFile dispatch. OpenFileFS first; otherwise plain Open for
read-only, otherwise an unsupported-operation PathError (the variant in
src/unnamed/part_007; the variant in part_006 differs only in using the
other sentinel). -/
def OpenFile (fsys : MFS) (name : String) (flag : Int) (perm : Nat) :
    (Option MFile × Option GoError) × List Ev :=
  match fsys.openFileFS with
  | some m => (m name flag perm, [Ev.openFileCall name flag])
  | none =>
    if flag = O_RDONLY then (fsys.openF name, [Ev.openCall name])
    else ((none, some (GoError.pathError "open" name Err.errUnsupported)), [])

/-- Truncate dispatch (truncate.go). Whole-filesystem TruncateFS first;
otherwise OpenFile with O_WRONLY, try TruncateFile, and close via
`defer safeClose(file, &err)` registered after the open-error check. -/
def Truncate (fsys : MFS) (name : String) (size : Int) : Outcome (Option GoError) × List Ev :=
  match fsys.truncateFS with
  | some m => (Outcome.ret (m name size), [Ev.nativeCall "truncate" name])
  | none =>
    match OpenFile fsys name O_WRONLY 0 with
    | ((_, some e), evs) => (Outcome.ret (some e), evs)
    | ((some file, none), evs) =>
      match file.truncFile with
      | some fm =>
        (Outcome.ret (safeClose file.closeF (fm size)),
         evs ++ [Ev.handleCall "truncate", Ev.closeCall])
      | none =>
        (Outcome.ret (safeClose file.closeF (some (GoError.pathError "truncate" name Err.errUnsupported))),
         evs ++ [Ev.closeCall])
    | ((none, none), evs) => (Outcome.panic "nil handle", evs)

/-- Splits a character list at every slash, keeping empty components: the
list of slash-separated elements that the element loop of fs.ValidPath
visits, and the element decomposition a slash-separated path denotes. -/
def splitSlash : List Char → List (List Char)
  | [] => [[]]
  | c :: cs =>
    if c = '/' then [] :: splitSlash cs
    else
      match splitSlash cs with
      | [] => [[c]]
      | e :: es => (c :: e) :: es

/-- Element check of the fs.ValidPath loop: an element may not be empty,
".", or "..". -/
def goodElem (e : List Char) : Bool :=
  !(e == [] || e == ['.'] || e == ['.', '.'])

/-- ValidPath (fs.go re-export of fs.ValidPath): "." is the root; otherwise
the element loop requires every slash-separated element to be nonempty and
distinct from "." and "..". Lean strings are always valid UTF-8, so the
utf8.ValidString guard of the source is identically true here. -/
def validPath (name : String) : Bool :=
  if name = "." then true else (splitSlash name.data).all goodElem

/-- Remove dispatch (remove.go): a native RemoveFS answers; otherwise the
terminal unsupported error, whose cause is the ErrUnsupported sentinel. -/
def Remove (removeFS : Option (String → Option GoError)) (name : String) : Option GoError :=
  match removeFS with
  | some m => m name
  | none => some (GoError.pathError "remove" name Err.errUnsupported)

/-- Lstat dispatch (lstat.go): the terminal unsupported error uses the
ErrUnsupported sentinel. The FileInfo result is opaque here. -/
def Lstat (lstatFS : Option (String → Except GoError Unit)) (name : String) :
    Except GoError Unit :=
  match lstatFS with
  | some m => m name
  | none => Except.error (GoError.pathError "lstat" name Err.errUnsupported)

/-- Readlink dispatch (src/unnamed/part_003): the terminal unsupported
error uses the ErrNotSupported sentinel. -/
def Readlink (readlinkFS : Option (String → Except GoError String)) (name : String) :
    Except GoError String :=
  match readlinkFS with
  | some m => m name
  | none => Except.error (GoError.pathError "readlink" name Err.errNotSupported)

/-- Mkdir dispatch (mkdir.go): the terminal unsupported error uses the
ErrNotSupported sentinel. -/
def MkdirDispatch (mkdirFS : Option (String → Nat → Option GoError)) (name : String)
    (perm : Nat) : Option GoError :=
  match mkdirFS with
  | some m => m name perm
  | none => some (GoError.pathError "mkdir" name Err.errNotSupported)

/-- Write helper (src/unnamed/part_007): a file that is not an io.Writer
yields the bare ErrUnsupported sentinel (the part_006 variant of the same
helper returns the ErrNotSupported sentinel instead). The write capability
is modelled as the number of bytes the handle would report written. -/
def Write (writerCap : Option (List Nat → Nat × Option GoError)) (p : List Nat) :
    Nat × Option GoError :=
  match writerCap with
  | some w => w p
  | none => (0, some (GoError.plain Err.errUnsupported))

/-- pathJoin models Go path.Join restricted to the already-clean arguments
that occur in this development (valid slash-free second components or ".",
and valid or "." first components): for such inputs Join returns the
slash-separated concatenation, dropping a "." component. -/
def pathJoin (a b : String) : String :=
  if a = "." then b else if b = "." then a else a ++ "/" ++ b

/-- subFS.fullName (remove.go): validate the relative name, then join it
with the sub-view root dir. -/
def fullName (dir op name : String) : Except GoError String :=
  if validPath name then Except.ok (pathJoin dir name)
  else Except.error (GoError.pathError op name Err.invalidName)

/-- subFS.shorten (remove.go): maps name back to the suffix after dir.
Faithful to the source condition
`len(name) >= len(f.dir)+2 && name[len(f.dir)] == '/' && name[:len(f.dir)] == f.dir`. -/
def shorten (dir name : String) : String × Bool :=
  if name = dir then (".", true)
  else if dir.data.length + 2 ≤ name.data.length ∧
          name.data.get? dir.data.length = some '/' ∧
          name.data.take dir.data.length = dir.data then
    (⟨name.data.drop (dir.data.length + 1)⟩, true)
  else ("", false)

/-- subFS.fixErr (remove.go): shorten any reported name in a PathError by
stripping dir; other errors pass through unmodified. -/
def fixErr (dir : String) (err : Option GoError) : Option GoError :=
  match err with
  | some (GoError.pathError op p cause) =>
    match shorten dir p with
    | (short, true) => some (GoError.pathError op short cause)
    | (_, false) => some (GoError.pathError op p cause)
  | e => e

/-- subFS.Open (remove.go): validate and join the name, forward to the
parent Open (passed in as a function over an opaque handle type), and fix
the path reported in any error. -/
def subOpen {α : Type} (popen : String → Option α × Option GoError) (dir name : String) :
    Option α × Option GoError :=
  match fullName dir "open" name with
  | Except.error e => (none, some e)
  | Except.ok full =>
    match popen full with
    | (file, err) => (file, fixErr dir err)

/-- Result of the Sub dispatch: the filesystem unchanged, a native
fsys.Sub result, or the subFS wrapper with its root. -/
inductive SubResult where
  | unchanged
  | nativeSub
  | wrapper (dir : String)
deriving Repr, DecidableEq

/-- Sub dispatch (remove.go): empty and "." roots return the filesystem
unchanged with no error; other roots are validated; a native SubFS is
preferred; otherwise the subFS wrapper is built. -/
def Sub (hasSubFS : Bool) (dir : String) : Except GoError SubResult :=
  if dir = "" ∨ dir = "." then Except.ok SubResult.unchanged
  else if validPath dir then
    if hasSubFS then Except.ok SubResult.nativeSub
    else Except.ok (SubResult.wrapper dir)
  else Except.error (GoError.pathError "sub" dir Err.invalidName)

/-- Handle whose capability methods would be observable if ever invoked:
each returns a distinctive error. Used to witness that the handle-scoped
path is not taken even when available. -/
def bothCapsFile : MFile :=
  { chmodFile := some (fun _ => some (GoError.plain (Err.other "handle chmod ran")))
    chownFile := some (fun _ _ => some (GoError.plain (Err.other "handle chown ran")))
    chtimesFile := some (fun _ _ => some (GoError.plain (Err.other "handle chtimes ran")))
    truncFile := some (fun _ => some (GoError.plain (Err.other "handle truncate ran")))
    closeF := none }

def wChmodFS : String → Nat → Option GoError := fun _ _ => none

def wChownFS : String → Int → Int → Option GoError := fun _ _ _ => none

def wChtimesFS : String → Int → Int → Option GoError := fun _ _ _ => none

def wTruncateFS : String → Int → Option GoError := fun _ _ => none

/-- Filesystem implementing both the whole-filesystem and the handle-scoped
capability for all four operations. -/
def bothCapsFS : MFS :=
  { chmodFS := some wChmodFS
    chownFS := some wChownFS
    chtimesFS := some wChtimesFS
    truncateFS := some wTruncateFS
    openFileFS := none
    openF := fun _ => (some bothCapsFile, none) }

/-- Handle with no capability methods at all. -/
def noCapFile : MFile :=
  { chmodFile := none, chownFile := none, chtimesFile := none, truncFile := none,
    closeF := none }

/-- Filesystem with no whole-filesystem capabilities whose Open always
succeeds with a capability-free handle. -/
def noCapFS : MFS :=
  { chmodFS := none, chownFS := none, chtimesFS := none, truncateFS := none,
    openFileFS := none, openF := fun _ => (some noCapFile, none) }

/-- A whole-filesystem Chmod method that accepts every argument. -/
def wAcceptChmod : String → Nat → Option GoError := fun _ _ => none

/-- Filesystem implementing only ChmodFS, accepting every argument. -/
def chmodOnlyFS : MFS :=
  { chmodFS := some wAcceptChmod, chownFS := none, chtimesFS := none, truncateFS := none,
    openFileFS := none, openF := fun n => (none, some (GoError.pathError "open" n Err.errNotExist)) }

/-- Handle whose Chmod succeeds but whose Close fails. -/
def closeErrFile : MFile :=
  { chmodFile := some (fun _ => none)
    chownFile := some (fun _ _ => none)
    chtimesFile := some (fun _ _ => none)
    truncFile := some (fun _ => none)
    closeF := some (GoError.plain Err.errPermission) }

/-- Filesystem without whole-filesystem capabilities whose Open yields
closeErrFile; OpenFile is supported natively and yields the same handle. -/
def closeErrFS : MFS :=
  { chmodFS := none, chownFS := none, chtimesFS := none, truncateFS := none,
    openFileFS := some (fun _ _ _ => (some closeErrFile, none))
    openF := fun _ => (some closeErrFile, none) }

/-- Filesystem with no capabilities whose Open always fails with a nil
handle and a not-exist error, like the openOnly test fixture over a
missing path. -/
def openFailFS : MFS :=
  { chmodFS := none, chownFS := none, chtimesFS := none, truncateFS := none,
    openFileFS := none,
    openF := fun n => (none, some (GoError.pathError "open" n Err.errNotExist)) }

/-- A concrete parent Open used to instantiate sub-view theorems. -/
def wParentOpen : String → Option Unit × Option GoError :=
  fun n => (none, some (GoError.pathError "open" n Err.errNotExist))

/-- Spec-side path shortening for the sub-view (refinement reference,
written from the spec words, to be compared with the code shorten): an
error path equal to the root maps to "."; a path beginning with the root
followed by "/" is cut down to the suffix after that slash; any other path
is unmodified. -/
def shortenSpec (dir p : String) : String :=
  if p = dir then "."
  else if (dir.data ++ ['/']) <+: p.data then ⟨p.data.drop (dir.data.length + 1)⟩
  else p

/-- Parent Open that reports a structured error whose path is exactly the
root followed by a slash (the edge the code leaves unmodified). -/
def cParentOpen : String → Option Unit × Option GoError :=
  fun _ => (none, some (GoError.pathError "open" "sub/" Err.errNotExist))

/-- Parent Open that reports a structured error on the joined path, as a
correct parent would. -/
def wParentOpenFull : String → Option Unit × Option GoError :=
  fun n => (none, some (GoError.pathError "open" n Err.errNotExist))

/-- Paths at the element level: the canonical decomposition of a
slash-separated path into its elements. -/
abbrev Key := List (List Char)

/-- The element decomposition of a path string. -/
def elems (p : String) : Key := splitSlash p.data

/-- Metadata of one filesystem object in the modelled collaborator: the
directory bit and the permission bits, the parts of FileInfo that the
claims mention. -/
structure Node where
  isDir : Bool
  perm : Nat
deriving Repr, DecidableEq

/-- State of the modelled in-memory filesystem collaborator (in the style
of wrfstest.MapFS, but with the strict Mkdir/Remove semantics of a real
filesystem): entries keyed by element decompositions, plus a set of paths
whose Remove fails with a permission error (the knob that models a child
failure). -/
structure Sys where
  ents : List (Key × Node)
  frozen : List Key
deriving Repr, DecidableEq

/-- Primitive-call events, recording which collaborator methods the
fallback algorithms invoked, in order. -/
inductive PEv where
  | statC (p : String)
  | readDirC (p : String)
  | mkdirC (p : String) (perm : Nat)
  | removeC (p : String)
deriving Repr, DecidableEq

/-- Association-list lookup on entries. -/
def findEnt (ents : List (Key × Node)) (k : Key) : Option Node :=
  match ents with
  | [] => none
  | (k2, n) :: rest => if k2 = k then some n else findEnt rest k

/-- Whether k names a directory entry. -/
def isDirKey (ents : List (Key × Node)) (k : Key) : Bool :=
  match findEnt ents k with
  | some n => n.isDir
  | none => false

/-- The entries that are direct children of k. -/
def childKeys (ents : List (Key × Node)) (k : Key) : List (Key × Node) :=
  ents.filter (fun e => e.1 != [] && e.1.dropLast == k)

/-- Removes the entry named k. -/
def eraseKey (ents : List (Key × Node)) (k : Key) : List (Key × Node) :=
  ents.filter (fun e => e.1 != k)

/-- Whether an entry lies at or below r. -/
def underB (r : Key) (e : Key × Node) : Bool := decide (r <+: e.1)

/-- Removes every entry at or below r. -/
def eraseUnder (r : Key) (ents : List (Key × Node)) : List (Key × Node) :=
  ents.filter (fun e => !(underB r e))

/-- The number of entries at or below r. -/
def countUnder (r : Key) (ents : List (Key × Node)) : Nat :=
  (ents.filter (underB r)).length

/-- A wellformed key: nonempty, with every element nonempty, slash-free
and distinct from "." and "..". -/
def goodKey (k : Key) : Bool :=
  k != [] && k.all (fun e => goodElem e && !(e.contains '/'))

/-- Wellformedness of the collaborator state: distinct wellformed keys,
and every entry hangs under a directory parent (or at the root). -/
def WFents (ents : List (Key × Node)) : Prop :=
  (ents.map (fun e => e.1)).Nodup ∧
  (∀ k n, (k, n) ∈ ents → goodKey k = true) ∧
  (∀ k n, (k, n) ∈ ents → k.dropLast = [] ∨ isDirKey ents k.dropLast = true)

/-- Stat of the modelled collaborator: look up the element decomposition
of the path; a missing path fails with not-exist, as the test fixtures do.
Only non-"." paths reach it in this development. -/
def statM (s : Sys) (p : String) : Except GoError Node :=
  match findEnt s.ents (elems p) with
  | some n => Except.ok n
  | none => Except.error (GoError.pathError "stat" p Err.errNotExist)

/-- ReadDir of the modelled collaborator: the direct children (name and
directory bit) of an existing directory, in state order. The claims do not
depend on the listing order, which the spec leaves implementation
defined. -/
def readDirM (s : Sys) (p : String) : Except GoError (List (String × Bool)) :=
  match findEnt s.ents (elems p) with
  | none => Except.error (GoError.pathError "readdir" p Err.errNotExist)
  | some n =>
    if n.isDir then
      Except.ok ((childKeys s.ents (elems p)).map (fun e => (⟨e.1.getLastD []⟩, e.2.isDir)))
    else Except.error (GoError.pathError "readdir" p Err.enotdir)

/-- Remove of the modelled collaborator: removes a file or an empty
directory; fails with not-exist on a missing path, with not-empty on a
nonempty directory, and with a permission error on a frozen path. -/
def removeM (s : Sys) (p : String) : Except GoError Sys :=
  if (elems p) ∈ s.frozen then
    Except.error (GoError.pathError "remove" p Err.errPermission)
  else
    match findEnt s.ents (elems p) with
    | none => Except.error (GoError.pathError "remove" p Err.errNotExist)
    | some n =>
      if n.isDir && !(childKeys s.ents (elems p) == []) then
        Except.error (GoError.pathError "remove" p Err.enotempty)
      else Except.ok { s with ents := eraseKey s.ents (elems p) }

/-- Mkdir of the modelled collaborator, with the strict semantics of a
real single-level mkdir (os.Mkdir): the path must be valid and new, and
its parent must exist as a directory (the implicit root always exists).
This strictness is what makes create order observable: a child cannot be
created before its parent. -/
def mkdirM (s : Sys) (p : String) (perm : Nat) : Except GoError Sys :=
  if !(validPath p) || p == "." then
    Except.error (GoError.pathError "mkdir" p Err.errNotExist)
  else
    match findEnt s.ents (elems p) with
    | some _ => Except.error (GoError.pathError "mkdir" p Err.errExist)
    | none =>
      if (elems p).dropLast == [] || isDirKey s.ents (elems p).dropLast then
        Except.ok { s with ents := (elems p, ⟨true, perm⟩) :: s.ents }
      else Except.error (GoError.pathError "mkdir" p Err.errNotExist)

/-- The final step of MkdirAll (mkdir.go): the parent now exists, invoke
Mkdir and use its result, double-checking on error that the directory does
not exist (arguments like "foo/." and racing creators). -/
def finishMkdir (s : Sys) (path : String) (perm : Nat) (tr : List PEv) :
    Option GoError × Sys × List PEv :=
  match mkdirM s path perm with
  | Except.ok s1 => (none, s1, tr ++ [PEv.mkdirC path perm])
  | Except.error e =>
    match statM s path with
    | Except.ok dir =>
      if dir.isDir then (none, s, tr ++ [PEv.mkdirC path perm, PEv.statC path])
      else (some e, s, tr ++ [PEv.mkdirC path perm, PEv.statC path])
    | Except.error _ => (some e, s, tr ++ [PEv.mkdirC path perm, PEv.statC path])

/-- MkdirAll fallback (mkdir.go), for a filesystem that implements MkdirFS
but not MkdirAllFS, over the modelled collaborator. Fast path: stat, and
succeed on an existing directory (ENOTDIR otherwise). Slow path: skip
trailing separators (index i in the source), scan backward over the last
element (index j, equal to rest.length here); when j > 1 recurse on the
parent path[:j-1] first; then Mkdir the path itself and double-check on
error. Fuel bounds the recursion depth; the Go recursion terminates
because the parent path is strictly shorter. The helper parentRest is the
backward scan of the source: path[:i] strips trailing separators and
path[:j] additionally strips the last element; parentRest returns the
reversed characters of path[:j], so j = (parentRest path).length and the
parent path[:j-1] is ((parentRest path).drop 1).reverse. -/
def parentRest (path : String) : List Char :=
  (path.data.reverse.dropWhile (fun c => c == '/')).dropWhile (fun c => c != '/')

def mkdirAllGo : Nat → Sys → String → Nat → Option (Option GoError × Sys × List PEv)
  | 0, _, _, _ => none
  | fuel+1, s, path, perm =>
    match statM s path with
    | Except.ok dir =>
      if dir.isDir then some (none, s, [PEv.statC path])
      else some (some (GoError.pathError "mkdir" path Err.enotdir), s, [PEv.statC path])
    | Except.error _ =>
      if (parentRest path).length > 1 then
        match mkdirAllGo fuel s ⟨((parentRest path).drop 1).reverse⟩ perm with
        | none => none
        | some (some e, s1, tr) => some (some e, s1, PEv.statC path :: tr)
        | some (none, s1, tr) => some (finishMkdir s1 path perm (PEv.statC path :: tr))
      else
        some (finishMkdir s path perm [PEv.statC path])

/-- The children loop of RemoveAll (remove.go): remove each listed entry
in order, recursing into directories via recRemove (the RemoveAll dispatch
itself, mirroring how the fallback is expressed in terms of dispatch),
aborting on the first failure. -/
def runLoop (recRemove : Sys → String → Option (Option GoError × Sys × List PEv))
    (removePath : String) :
    Sys → List (String × Bool) → Option (Option GoError × Sys × List PEv)
  | s, [] => some (none, s, [])
  | s, (name, dirbit) :: rest =>
    if dirbit then
      match recRemove s (pathJoin removePath name) with
      | none => none
      | some (some e, s1, tr) => some (some e, s1, tr)
      | some (none, s1, tr) =>
        match runLoop recRemove removePath s1 rest with
        | none => none
        | some (r, s2, tr2) => some (r, s2, tr ++ tr2)
    else
      match removeM s (pathJoin removePath name) with
      | Except.error e => some (some e, s, [PEv.removeC (pathJoin removePath name)])
      | Except.ok s1 =>
        match runLoop recRemove removePath s1 rest with
        | none => none
        | some (r, s2, tr2) => some (r, s2, PEv.removeC (pathJoin removePath name) :: tr2)

/-- RemoveAll fallback (remove.go), for a filesystem that implements
single-level Remove and directory listing but not RemoveAllFS, over the
modelled collaborator. Stat (propagating its error); remove directly if
not a directory; otherwise list the entries and run the children loop;
finally remove the path itself. Fuel bounds the recursion depth (the Go
recursion terminates because each child subtree is strictly smaller). -/
def removeAllGo : Nat → Sys → String → Option (Option GoError × Sys × List PEv)
  | 0, _, _ => none
  | fuel+1, s, removePath =>
    match statM s removePath with
    | Except.error e => some (some e, s, [PEv.statC removePath])
    | Except.ok fi =>
      if !fi.isDir then
        match removeM s removePath with
        | Except.error e => some (some e, s, [PEv.statC removePath, PEv.removeC removePath])
        | Except.ok s1 => some (none, s1, [PEv.statC removePath, PEv.removeC removePath])
      else
        match readDirM s removePath with
        | Except.error e => some (some e, s, [PEv.statC removePath, PEv.readDirC removePath])
        | Except.ok files =>
          match runLoop (removeAllGo fuel) removePath s files with
          | none => none
          | some (some e, s1, tr) =>
            some (some e, s1, PEv.statC removePath :: PEv.readDirC removePath :: tr)
          | some (none, s1, tr) =>
            match removeM s1 removePath with
            | Except.error e =>
              some (some e, s1,
                PEv.statC removePath :: PEv.readDirC removePath :: (tr ++ [PEv.removeC removePath]))
            | Except.ok s2 =>
              some (none, s2,
                PEv.statC removePath :: PEv.readDirC removePath :: (tr ++ [PEv.removeC removePath]))

/-- The paths removed in a trace, as keys, in order. -/
def removeKeys (tr : List PEv) : List Key :=
  tr.filterMap (fun ev => match ev with | PEv.removeC p => some (elems p) | _ => none)

/-- Whether an entry lies below one of the listed children of rk. -/
def insideAny (rk : Key) (files : List (String × Bool)) (e : Key × Node) : Bool :=
  files.any (fun f => underB (rk ++ [f.1.data]) e)

/-- Specification of a successful RemoveAll run at a given fuel: the run
returns no error, the final state is the original entries with the whole
subtree of the target erased and no frozen paths, every removed key lies
at or below the target, the removed keys are a permutation of the keys at
or below the target, and no removed key is an ancestor of a later removed
key (children are removed before their parents). This is the inductive
hypothesis threaded through the children loop. -/
def RemoveAllSpec (fuel : Nat) : Prop :=
  ∀ (s : Sys) (q : String) (qn : Node),
    WFents s.ents → s.frozen = [] → q ≠ "." →
    findEnt s.ents (elems q) = some qn →
    countUnder (elems q) s.ents < fuel →
    ∃ tr, removeAllGo fuel s q = some (none, ⟨eraseUnder (elems q) s.ents, []⟩, tr) ∧
      (∀ k ∈ removeKeys tr, (elems q) <+: k) ∧
      List.Perm (removeKeys tr) ((s.ents.filter (underB (elems q))).map (fun e => e.1)) ∧
      (removeKeys tr).Pairwise (fun a b => ¬ (a <+: b))

/-- The primitive event that produced a given primitive error. -/
def errEvent (e : GoError) : Option PEv :=
  match e with
  | GoError.pathError "stat" p _ => some (PEv.statC p)
  | GoError.pathError "readdir" p _ => some (PEv.readDirC p)
  | GoError.pathError "remove" p _ => some (PEv.removeC p)
  | _ => none

/-- A concrete directory tree used to instantiate the fallback-algorithm
theorems: a directory "a" with a file "a/b", a subdirectory "a/c" and a
file "a/c/d" below it. -/
def demoEnts : List (Key × Node) :=
  [(elems "a", ⟨true, 493⟩), (elems "a/b", ⟨false, 420⟩), (elems "a/c", ⟨true, 493⟩),
   (elems "a/c/d", ⟨false, 420⟩)]

/-- The demo tree with nothing frozen. -/
def demoSys : Sys := ⟨demoEnts, []⟩

/-- Whether a primitive result is a success. -/
def isOkE (r : Except GoError Sys) : Bool :=
  match r with
  | Except.ok _ => true
  | Except.error _ => false

/-- The state left by a successful mkdirAllGo run on "a/b/c" with
permission bits 509 from the empty filesystem. -/
def mkdirDemoSys : Sys :=
  ⟨[(elems "a/b/c", ⟨true, 509⟩), (elems "a/b", ⟨true, 509⟩), (elems "a", ⟨true, 509⟩)], []⟩

/-- The demo tree where removing "a/c/d" fails with a permission error. -/
def demoFrozenSys : Sys := ⟨demoEnts, [elems "a/c/d"]⟩

/-! ## Theorems -/

/-- C1: for each of Chmod, Chown, Chtimes and Truncate, if the filesystem
implements the whole-filesystem capability then the dispatch function
delegates to it and returns its result unchanged, and the
open-then-handle-capability path is never taken (the event trace is
exactly the one native call, with no open), regardless of whether the
handle-scoped capability is also implemented. -/
theorem whole_fs_capability_precedence
    (fsys : MFS) (name : String) (mode : Nat) (uid gid atime mtime size : Int)
    (cm : String → Nat → Option GoError) (co : String → Int → Int → Option GoError)
    (ctm : String → Int → Int → Option GoError) (ctr : String → Int → Option GoError)
    (hm : fsys.chmodFS = some cm) (ho : fsys.chownFS = some co)
    (ht : fsys.chtimesFS = some ctm) (htr : fsys.truncateFS = some ctr) :
    Chmod fsys name mode = (Outcome.ret (cm name mode), [Ev.nativeCall "chmod" name]) ∧
    Chown fsys name uid gid = (Outcome.ret (co name uid gid), [Ev.nativeCall "chown" name]) ∧
    Chtimes fsys name atime mtime = (Outcome.ret (ctm name atime mtime), [Ev.nativeCall "chtimes" name]) ∧
    Truncate fsys name size = (Outcome.ret (ctr name size), [Ev.nativeCall "truncate" name]) := by
  refine ⟨?_, ?_, ?_, ?_⟩ <;> simp [Chmod, Chown, Chtimes, Truncate, hm, ho, ht, htr]

/-- Witness for C1 at a concrete filesystem implementing both capability
forms: the native methods answer and the handle methods (which would
return observable errors) are never consulted. -/
theorem whole_fs_capability_precedence_witness :
    bothCapsFS.chmodFS = some wChmodFS ∧
    bothCapsFS.chownFS = some wChownFS ∧
    bothCapsFS.chtimesFS = some wChtimesFS ∧
    bothCapsFS.truncateFS = some wTruncateFS ∧
    (Chmod bothCapsFS "hello.txt" 438 = (Outcome.ret none, [Ev.nativeCall "chmod" "hello.txt"]) ∧
     Chown bothCapsFS "hello.txt" 2 3 = (Outcome.ret none, [Ev.nativeCall "chown" "hello.txt"]) ∧
     Chtimes bothCapsFS "hello.txt" 5 7 = (Outcome.ret none, [Ev.nativeCall "chtimes" "hello.txt"]) ∧
     Truncate bothCapsFS "hello.txt" 11 = (Outcome.ret none, [Ev.nativeCall "truncate" "hello.txt"])) :=
  ⟨rfl, rfl, rfl, rfl,
   whole_fs_capability_precedence bothCapsFS "hello.txt" 438 2 3 5 7 11
     wChmodFS wChownFS wChtimesFS wTruncateFS rfl rfl rfl rfl⟩

/-- C5 counterexample: the unsupported cause is not one stable signal.
Remove on a filesystem without the capability fails with cause
ErrUnsupported, while Chmod falling through both capabilities fails with
cause ErrNotSupported, and the two sentinels are distinct error values
(two different errors.New calls), so a caller testing the Remove error
against the sentinel used by Chmod gets no match. -/
theorem unsupported_sentinel_counterexample :
    Remove none "hello.txt" = some (GoError.pathError "remove" "hello.txt" Err.errUnsupported) ∧
    Chmod noCapFS "hello.txt" 438 =
      (Outcome.ret (some (GoError.pathError "chmod" "hello.txt" Err.errNotSupported)),
       [Ev.openCall "hello.txt", Ev.closeCall]) ∧
    Err.errUnsupported ≠ Err.errNotSupported := by
  refine ⟨rfl, rfl, ?_⟩
  decide

/-- C5 amended: the codebase has exactly two unsupported sentinels.
Remove, Lstat and the Write helper decline with ErrUnsupported, while
Mkdir, Readlink and Chmod decline with ErrNotSupported; each group is
internally stable, but the two sentinels are distinct error values, so the
signal is stable only within a group, not across all operations. -/
theorem unsupported_sentinels_amended (name : String) (mode perm : Nat) (p : List Nat) :
    Remove none name = some (GoError.pathError "remove" name Err.errUnsupported) ∧
    Lstat none name = Except.error (GoError.pathError "lstat" name Err.errUnsupported) ∧
    Write none p = (0, some (GoError.plain Err.errUnsupported)) ∧
    MkdirDispatch none name perm = some (GoError.pathError "mkdir" name Err.errNotSupported) ∧
    Readlink none name = Except.error (GoError.pathError "readlink" name Err.errNotSupported) ∧
    (Chmod noCapFS name mode).1 =
      Outcome.ret (some (GoError.pathError "chmod" name Err.errNotSupported)) ∧
    Err.errUnsupported ≠ Err.errNotSupported := by
  refine ⟨rfl, rfl, rfl, rfl, rfl, rfl, ?_⟩
  decide

/-- C6 counterexample: dispatch functions do not reject invalid paths
before touching the underlying filesystem. ".." is an invalid path, yet
Chmod on a filesystem implementing ChmodFS delegates it directly: the
trace shows the underlying method was invoked, the result is its nil
error, and no structured validation error was produced. -/
theorem path_validation_counterexample :
    validPath ".." = false ∧
    Chmod chmodOnlyFS ".." 438 = (Outcome.ret none, [Ev.nativeCall "chmod" ".."]) := by
  exact ⟨rfl, rfl⟩

/-- C6 amended: path validation lives in the sub-view layer, not in the
dispatch functions. The subFS operations reject an invalid relative name
with a structured error before consulting the parent (the result does not
depend on the parent Open at all); Sub rejects an invalid nonempty root;
but Sub of the empty (invalid) root returns the filesystem unchanged with
no error, and dispatch functions such as Chmod delegate any path, valid or
not, straight to the underlying filesystem. -/
theorem path_validation_amended (fsys : MFS) (m : String → Nat → Option GoError)
    (dir name : String) (mode : Nat) (b : Bool)
    (hm : fsys.chmodFS = some m) (hname : validPath name = false)
    (hdir : validPath dir = false) (hne : dir ≠ "") :
    (∀ (α : Type) (popen : String → Option α × Option GoError),
       subOpen popen dir name = (none, some (GoError.pathError "open" name Err.invalidName))) ∧
    Sub b dir = Except.error (GoError.pathError "sub" dir Err.invalidName) ∧
    Sub b "" = Except.ok SubResult.unchanged ∧
    Chmod fsys name mode = (Outcome.ret (m name mode), [Ev.nativeCall "chmod" name]) := by
  have hdot : dir ≠ "." := by
    intro h
    rw [h] at hdir
    simp [validPath] at hdir
  refine ⟨?_, ?_, ?_, ?_⟩
  · intro α popen
    simp [subOpen, fullName, hname]
  · simp [Sub, hne, hdot, hdir]
  · simp [Sub]
  · simp [Chmod, hm]

/-- Witness for the amended C6 at concrete inputs: name "..", root "a//b"
(both invalid), a parent Open fixture and the ChmodFS-only filesystem. -/
theorem path_validation_amended_witness :
    chmodOnlyFS.chmodFS = some wAcceptChmod ∧
    validPath ".." = false ∧
    validPath "a//b" = false ∧
    "a//b" ≠ "" ∧
    (subOpen wParentOpen "a//b" ".." = (none, some (GoError.pathError "open" ".." Err.invalidName)) ∧
     Sub false "a//b" = Except.error (GoError.pathError "sub" "a//b" Err.invalidName) ∧
     Sub false "" = Except.ok SubResult.unchanged ∧
     Chmod chmodOnlyFS ".." 438 = (Outcome.ret none, [Ev.nativeCall "chmod" ".."])) := by
  refine ⟨rfl, rfl, rfl, by decide, ?_, ?_, ?_, ?_⟩
  · exact (path_validation_amended chmodOnlyFS wAcceptChmod "a//b" ".." 438 false
      rfl rfl rfl (by decide)).1 Unit wParentOpen
  · exact (path_validation_amended chmodOnlyFS wAcceptChmod "a//b" ".." 438 false
      rfl rfl rfl (by decide)).2.1
  · exact (path_validation_amended chmodOnlyFS wAcceptChmod "a//b" ".." 438 false
      rfl rfl rfl (by decide)).2.2.1
  · exact (path_validation_amended chmodOnlyFS wAcceptChmod "a//b" ".." 438 false
      rfl rfl rfl (by decide)).2.2.2

/-- C7 counterexample: Chmod does not surface a close error. On a
filesystem without ChmodFS whose handle Chmod succeeds but whose Close
fails with a permission error, Chmod returns a nil error: the operation
succeeded, the close failed, and the close error was discarded rather than
surfaced as the claim requires. -/
theorem close_error_surfacing_counterexample :
    closeErrFile.closeF = some (GoError.plain Err.errPermission) ∧
    Chmod closeErrFS "hello.txt" 438 =
      (Outcome.ret none, [Ev.openCall "hello.txt", Ev.handleCall "chmod", Ev.closeCall]) ∧
    Outcome.ret (none : Option GoError) ≠
      Outcome.ret (some (GoError.plain Err.errPermission)) := by
  refine ⟨rfl, rfl, ?_⟩
  decide

/-- C7 amended: on the open-then-delegate fallback, the handle is closed on
every exit path after a successful open, and for Chown, Chtimes and
Truncate a close error never overwrites a prior operation error and is
surfaced when the operation succeeded; Chmod also closes on every exit
path but discards the close error, so a close error after a successful
chmod is not surfaced. -/
theorem close_discipline_amended (fsys : MFS) (file : MFile) (name : String)
    (mode : Nat) (uid gid atime mtime size : Int)
    (ofl : String → Int → Nat → Option MFile × Option GoError)
    (hcm : fsys.chmodFS = none) (hco : fsys.chownFS = none)
    (hct : fsys.chtimesFS = none) (htr : fsys.truncateFS = none)
    (hopen : fsys.openF name = (some file, none))
    (hofl : fsys.openFileFS = some ofl)
    (hoflres : ofl name O_WRONLY 0 = (some file, none)) :
    (Ev.closeCall ∈ (Chown fsys name uid gid).2 ∧
     (∀ fm e, file.chownFile = some fm → fm uid gid = some e →
        (Chown fsys name uid gid).1 = Outcome.ret (some e)) ∧
     (∀ fm, file.chownFile = some fm → fm uid gid = none →
        (Chown fsys name uid gid).1 = Outcome.ret file.closeF) ∧
     (file.chownFile = none →
        (Chown fsys name uid gid).1 =
          Outcome.ret (some (GoError.pathError "chown" name Err.errNotSupported)))) ∧
    (Ev.closeCall ∈ (Chtimes fsys name atime mtime).2 ∧
     (∀ fm e, file.chtimesFile = some fm → fm atime mtime = some e →
        (Chtimes fsys name atime mtime).1 = Outcome.ret (some e)) ∧
     (∀ fm, file.chtimesFile = some fm → fm atime mtime = none →
        (Chtimes fsys name atime mtime).1 = Outcome.ret file.closeF)) ∧
    (Ev.closeCall ∈ (Truncate fsys name size).2 ∧
     (∀ fm e, file.truncFile = some fm → fm size = some e →
        (Truncate fsys name size).1 = Outcome.ret (some e)) ∧
     (∀ fm, file.truncFile = some fm → fm size = none →
        (Truncate fsys name size).1 = Outcome.ret file.closeF)) ∧
    (Ev.closeCall ∈ (Chmod fsys name mode).2 ∧
     (∀ fm, file.chmodFile = some fm →
        (Chmod fsys name mode).1 = Outcome.ret (fm mode))) := by
  refine ⟨⟨?_, ?_, ?_, ?_⟩, ⟨?_, ?_, ?_⟩, ⟨?_, ?_, ?_⟩, ⟨?_, ?_⟩⟩
  · simp [Chown, hco, hopen]
    cases h : file.chownFile <;> simp
  · intro fm e hfm he
    simp [Chown, hco, hopen, hfm, he, safeClose]
  · intro fm hfm he
    simp [Chown, hco, hopen, hfm, he, safeClose]
  · intro hfm
    simp [Chown, hco, hopen, hfm, safeClose]
  · simp [Chtimes, hct, hopen]
    cases h : file.chtimesFile <;> simp
  · intro fm e hfm he
    simp [Chtimes, hct, hopen, hfm, he, safeClose]
  · intro fm hfm he
    simp [Chtimes, hct, hopen, hfm, he, safeClose]
  · simp [Truncate, htr, OpenFile, hofl, hoflres]
    cases h : file.truncFile <;> simp
  · intro fm e hfm he
    simp [Truncate, htr, OpenFile, hofl, hoflres, hfm, he, safeClose]
  · intro fm hfm he
    simp [Truncate, htr, OpenFile, hofl, hoflres, hfm, he, safeClose]
  · simp [Chmod, hcm, hopen]
    cases h : file.chmodFile <;> simp
  · intro fm hfm
    simp [Chmod, hcm, hopen, hfm]

/-- Witness for the amended C7 on the concrete closeErrFS fixture: all
handle operations succeed, Close fails, and the close error is surfaced by
Chown, Chtimes and Truncate but not by Chmod. -/
theorem close_discipline_amended_witness :
    closeErrFS.chmodFS = none ∧
    closeErrFS.openF "f.txt" = (some closeErrFile, none) ∧
    ((Chown closeErrFS "f.txt" 2 3).1 = Outcome.ret closeErrFile.closeF ∧
     (Chtimes closeErrFS "f.txt" 5 7).1 = Outcome.ret closeErrFile.closeF ∧
     (Truncate closeErrFS "f.txt" 11).1 = Outcome.ret closeErrFile.closeF ∧
     (Chmod closeErrFS "f.txt" 438).1 = Outcome.ret none) := by
  have h := close_discipline_amended closeErrFS closeErrFile "f.txt" 438 2 3 5 7 11
    (fun _ _ _ => (some closeErrFile, none)) rfl rfl rfl rfl rfl rfl rfl
  refine ⟨rfl, rfl, ?_, ?_, ?_, ?_⟩
  · exact h.1.2.2.1 (fun _ _ => none) rfl rfl
  · exact h.2.1.2.2 (fun _ _ => none) rfl rfl
  · exact h.2.2.1.2.2 (fun _ => none) rfl rfl
  · exact h.2.2.2.2 (fun _ => none) rfl

/-- C10: on a filesystem without ChtimesFS, when Open fails with a nil
handle, Chtimes does not return the open error: the source registers the
deferred safeClose before checking the open error, so the deferred Close
runs on the nil handle and panics. This proves the code diverges from the
claimed behavior (return the open error, never Close a nil handle). -/
theorem chtimes_nil_handle_panics (fsys : MFS) (name : String) (atime mtime : Int)
    (e : GoError) (hcap : fsys.chtimesFS = none) (hopen : fsys.openF name = (none, some e)) :
    Chtimes fsys name atime mtime = (Outcome.panic "nil handle", [Ev.openCall name]) := by
  simp [Chtimes, hcap, hopen]

/-- Witness for C10: the openFailFS fixture (no capabilities, Open always
fails with not-exist and a nil handle) makes Chtimes panic instead of
returning the open error. -/
theorem chtimes_nil_handle_panics_witness :
    openFailFS.chtimesFS = none ∧
    openFailFS.openF "missing.txt" =
      (none, some (GoError.pathError "open" "missing.txt" Err.errNotExist)) ∧
    Chtimes openFailFS "missing.txt" 1 2 = (Outcome.panic "nil handle", [Ev.openCall "missing.txt"]) :=
  ⟨rfl, rfl,
   chtimes_nil_handle_panics openFailFS "missing.txt" 1 2
     (GoError.pathError "open" "missing.txt" Err.errNotExist) rfl rfl⟩

/-- Characterization of extending a character list by one character, used
to relate the index-based condition of the code shorten to the spec-side
slash-prefix condition. -/
theorem take_get_char_iff (l m : List Char) (c : Char) :
    (l ++ [c]) <+: m ↔ m.take l.length = l ∧ m.get? l.length = some c := by
  constructor
  · rintro ⟨t, ht⟩
    have hm : m = l ++ c :: t := by rw [← ht]; simp
    subst hm
    refine ⟨List.take_left l (c :: t), ?_⟩
    induction l with
    | nil => rfl
    | cons a l ih => simpa using ih
  · rintro ⟨h1, h2⟩
    have hlt : l.length < m.length := by
      rw [List.get?_eq_getElem?] at h2
      exact (List.getElem?_eq_some.mp h2).1
    have hc : m[l.length] = c := by
      rw [List.get?_eq_getElem?, List.getElem?_eq_some] at h2
      exact h2.2
    have hdrop : m.drop l.length = c :: m.drop (l.length + 1) := by
      rw [List.drop_eq_getElem_cons hlt, hc]
    refine ⟨m.drop (l.length + 1), ?_⟩
    calc (l ++ [c]) ++ m.drop (l.length + 1)
        = l ++ c :: m.drop (l.length + 1) := by simp
      _ = m.take l.length ++ m.drop l.length := by rw [h1, hdrop]
      _ = m := List.take_append_drop _ m

/-- Unfolding equation for shorten when the extension condition holds. -/
theorem shorten_pos (dir p : String) (hpd : p ≠ dir)
    (hC : dir.data.length + 2 ≤ p.data.length ∧
      p.data.get? dir.data.length = some '/' ∧ p.data.take dir.data.length = dir.data) :
    shorten dir p = (⟨p.data.drop (dir.data.length + 1)⟩, true) := by
  unfold shorten
  rw [if_neg hpd, if_pos hC]

/-- Unfolding equation for shorten when the extension condition fails. -/
theorem shorten_neg (dir p : String) (hpd : p ≠ dir)
    (hC : ¬(dir.data.length + 2 ≤ p.data.length ∧
      p.data.get? dir.data.length = some '/' ∧ p.data.take dir.data.length = dir.data)) :
    shorten dir p = ("", false) := by
  unfold shorten
  rw [if_neg hpd, if_neg hC]

/-- On every reported path other than the root followed by a bare slash,
the code shortening performed by fixErr agrees with the spec-side
transform. -/
theorem fixErr_eq_shortenSpec (dir op p : String) (cause : Err) (hne : p ≠ dir ++ "/") :
    fixErr dir (some (GoError.pathError op p cause)) =
      some (GoError.pathError op (shortenSpec dir p) cause) := by
  by_cases hpd : p = dir
  · subst hpd
    unfold fixErr shorten shortenSpec
    simp
  · by_cases hC : dir.data.length + 2 ≤ p.data.length ∧
        p.data.get? dir.data.length = some '/' ∧
        p.data.take dir.data.length = dir.data
    · have hpre : (dir.data ++ ['/']) <+: p.data :=
        (take_get_char_iff dir.data p.data '/').mpr ⟨hC.2.2, hC.2.1⟩
      show (match shorten dir p with
            | (short, true) => some (GoError.pathError op short cause)
            | (_, false) => some (GoError.pathError op p cause)) =
          some (GoError.pathError op (shortenSpec dir p) cause)
      rw [shorten_pos dir p hpd hC]
      unfold shortenSpec
      rw [if_neg hpd, if_pos hpre]
    · have hpre : ¬ (dir.data ++ ['/']) <+: p.data := by
        intro hpre
        rcases (take_get_char_iff dir.data p.data '/').mp hpre with ⟨h1, h2⟩
        rcases hpre with ⟨t, ht⟩
        cases t with
        | nil =>
          apply hne
          apply String.ext
          have hslash : ("/" : String).data = ['/'] := rfl
          rw [String.data_append, hslash, ← ht]
          simp
        | cons a t =>
          apply hC
          refine ⟨?_, h2, h1⟩
          have hlen := congrArg List.length ht
          simp only [List.length_append, List.length_cons, List.length_singleton] at hlen
          omega
      show (match shorten dir p with
            | (short, true) => some (GoError.pathError op short cause)
            | (_, false) => some (GoError.pathError op p cause)) =
          some (GoError.pathError op (shortenSpec dir p) cause)
      rw [shorten_neg dir p hpd hC]
      unfold shortenSpec
      rw [if_neg hpd, if_neg hpre]

/-- C4 counterexample: a structured error whose path is exactly the root
followed by a slash begins with the prefix "sub/" but is returned with its
path unmodified, because the code shorten requires the path to extend
"sub/" by at least one character; the claim requires it to be shortened to
the empty suffix. -/
theorem sub_open_shorten_edge_counterexample :
    ("sub".data ++ ['/']) <+: "sub/".data ∧
    subOpen cParentOpen "sub" "x" =
      (none, some (GoError.pathError "open" "sub/" Err.errNotExist)) ∧
    GoError.pathError "open" "sub/" Err.errNotExist ≠
      GoError.pathError "open" "" Err.errNotExist := by
  refine ⟨by decide, rfl, by decide⟩

/-- C4 amended: for every valid relative path x, the sub-view Open forwards
to the parent Open on the joined path and returns its result unchanged,
except that a structured error path is rewritten by the spec-side
shortening transform, on every reported path other than exactly the root
followed by a bare slash (which the code leaves unmodified); bare
(non-path-carrying) errors pass through unchanged. -/
theorem sub_open_refinement {α : Type} (popen : String → Option α × Option GoError)
    (dir x : String) (hx : validPath x = true) :
    (∀ file, popen (pathJoin dir x) = (file, none) → subOpen popen dir x = (file, none)) ∧
    (∀ file op p cause,
       popen (pathJoin dir x) = (file, some (GoError.pathError op p cause)) → p ≠ dir ++ "/" →
       subOpen popen dir x = (file, some (GoError.pathError op (shortenSpec dir p) cause))) ∧
    (∀ file cause, popen (pathJoin dir x) = (file, some (GoError.plain cause)) →
       subOpen popen dir x = (file, some (GoError.plain cause))) := by
  refine ⟨?_, ?_, ?_⟩
  · intro file h
    simp [subOpen, fullName, hx, h, fixErr]
  · intro file op p cause h hne
    simp [subOpen, fullName, hx, h, fixErr_eq_shortenSpec dir op p cause hne]
  · intro file cause h
    simp [subOpen, fullName, hx, h, fixErr]

/-- Witness for the amended C4: through a sub-view rooted at "sub", an
error reported by the parent at "sub/x" surfaces with path "x". -/
theorem sub_open_refinement_witness :
    validPath "x" = true ∧
    wParentOpenFull (pathJoin "sub" "x") =
      (none, some (GoError.pathError "open" "sub/x" Err.errNotExist)) ∧
    "sub/x" ≠ "sub" ++ "/" ∧
    subOpen wParentOpenFull "sub" "x" =
      (none, some (GoError.pathError "open" "x" Err.errNotExist)) := by
  refine ⟨rfl, rfl, by decide, ?_⟩
  exact (sub_open_refinement wParentOpenFull "sub" "x" rfl).2.1 none "open" "sub/x"
    Err.errNotExist rfl (by decide)

/-- statM succeeds exactly on present keys. -/
theorem statM_ok_iff (s : Sys) (p : String) (n : Node) :
    statM s p = Except.ok n ↔ findEnt s.ents (elems p) = some n := by
  unfold statM
  cases h : findEnt s.ents (elems p) <;> simp

/-- Lookup at the head of the entry list. -/
theorem findEnt_cons_self (rest : List (Key × Node)) (k : Key) (n : Node) :
    findEnt ((k, n) :: rest) k = some n := by
  unfold findEnt
  simp

/-- A successful mkdirM prepends the new directory entry and keeps the
frozen set. -/
theorem mkdirM_ok_shape (s s1 : Sys) (p : String) (m : Nat)
    (h : mkdirM s p m = Except.ok s1) :
    s1.ents = (elems p, ⟨true, m⟩) :: s.ents ∧ s1.frozen = s.frozen := by
  unfold mkdirM at h
  cases hv : (!(validPath p) || p == ".") with
  | true => rw [hv] at h; simp at h
  | false =>
    rw [hv] at h
    simp only [Bool.false_eq_true, if_false] at h
    cases hf : findEnt s.ents (elems p) with
    | some n => rw [hf] at h; simp at h
    | none =>
      rw [hf] at h
      cases hc : ((elems p).dropLast == [] || isDirKey s.ents (elems p).dropLast) with
      | true =>
        rw [hc] at h
        simp only [if_true] at h
        cases h
        exact ⟨rfl, rfl⟩
      | false => rw [hc] at h; simp at h

/-- mkdirM refuses to create a directory whose parent is absent: the
parent must exist at the moment the child is created. -/
theorem mkdirM_requires_parent (s : Sys) (q : String) (m : Nat)
    (habs : findEnt s.ents (elems q).dropLast = none) (hne : (elems q).dropLast ≠ []) :
    isOkE (mkdirM s q m) = false := by
  unfold mkdirM
  cases hv : (!(validPath q) || q == ".") with
  | true => simp [isOkE]
  | false =>
    simp only [Bool.false_eq_true, if_false]
    cases hf : findEnt s.ents (elems q) with
    | some n => simp [isOkE]
    | none =>
      have hc : ((elems q).dropLast == [] || isDirKey s.ents (elems q).dropLast) = false := by
        have h1 : ((elems q).dropLast == []) = false := by
          simpa using hne
        have h2 : isDirKey s.ents (elems q).dropLast = false := by
          unfold isDirKey
          rw [habs]
        rw [h1, h2]
        rfl
      rw [hc]
      simp [isOkE]

/-- A successful finishMkdir leaves the target present as a directory. -/
theorem finishMkdir_ok_isDir (s : Sys) (p : String) (m : Nat) (tr tr1 : List PEv) (s1 : Sys)
    (h : finishMkdir s p m tr = (none, s1, tr1)) :
    ∃ n, findEnt s1.ents (elems p) = some n ∧ n.isDir = true := by
  unfold finishMkdir at h
  cases hmk : mkdirM s p m with
  | ok s2 =>
    rw [hmk] at h
    obtain ⟨he, _⟩ := mkdirM_ok_shape s s2 p m hmk
    simp only [Prod.mk.injEq] at h
    obtain ⟨hs, _⟩ := h.2
    refine ⟨⟨true, m⟩, ?_, rfl⟩
    rw [← hs, he]
    exact findEnt_cons_self _ _ _
  | error e =>
    rw [hmk] at h
    cases hst : statM s p with
    | ok dir =>
      rw [hst] at h
      cases hdir : dir.isDir with
      | true =>
        simp only [hdir, if_true] at h
        simp only [Prod.mk.injEq] at h
        obtain ⟨hs, _⟩ := h.2
        exact ⟨dir, by rw [← hs]; exact (statM_ok_iff s p dir).mp hst, hdir⟩
      | false => simp [hdir] at h
    | error e2 => rw [hst] at h; simp at h

/-- A successful mkdirAllGo leaves the target present as a directory. -/
theorem mkdirAll_ok_isDir (fuel : Nat) (s s1 : Sys) (p : String) (m : Nat) (tr : List PEv)
    (h : mkdirAllGo fuel s p m = some (none, s1, tr)) :
    ∃ n, findEnt s1.ents (elems p) = some n ∧ n.isDir = true := by
  cases fuel with
  | zero => simp [mkdirAllGo] at h
  | succ fuel =>
    unfold mkdirAllGo at h
    cases hst : statM s p with
    | ok dir =>
      rw [hst] at h
      cases hdir : dir.isDir with
      | true =>
        simp only [hdir] at h
        simp at h
        obtain ⟨hs, _⟩ := h
        exact ⟨dir, by rw [← hs]; exact (statM_ok_iff s p dir).mp hst, hdir⟩
      | false =>
        simp [hdir] at h
    | error e0 =>
      rw [hst] at h
      by_cases hl : (parentRest p).length > 1
      · rw [if_pos hl] at h
        cases hrec : mkdirAllGo fuel s ⟨((parentRest p).drop 1).reverse⟩ m with
        | none => rw [hrec] at h; simp at h
        | some res =>
          obtain ⟨r0, s0, tr0⟩ := res
          rw [hrec] at h
          cases r0 with
          | some e1 => simp at h
          | none =>
            simp only [Option.some.injEq] at h
            exact finishMkdir_ok_isDir s0 p m (PEv.statC p :: tr0) tr s1 h
      · rw [if_neg hl] at h
        simp only [Option.some.injEq] at h
        exact finishMkdir_ok_isDir s p m [PEv.statC p] tr s1 h

/-- C2: over the modelled collaborator offering only single-level strict
Mkdir, MkdirAll on "a/b/c" from the empty filesystem succeeds and creates
exactly the directories "a", "a/b" and "a/b/c", each with permission m;
the trace shows each parent created before its child (mkdir "a", then
"a/b", then "a/b/c"), and the strict Mkdir primitive (second conjunct)
refuses to create an entry whose parent does not exist, so the successful
run certifies that each parent existed at the moment its child was
created. -/
theorem mkdirAll_creates_chain (m : Nat) :
    mkdirAllGo 3 ⟨[], []⟩ "a/b/c" m =
      some (none,
        ⟨[(elems "a/b/c", ⟨true, m⟩), (elems "a/b", ⟨true, m⟩), (elems "a", ⟨true, m⟩)], []⟩,
        [PEv.statC "a/b/c", PEv.statC "a/b", PEv.statC "a",
         PEv.mkdirC "a" m, PEv.mkdirC "a/b" m, PEv.mkdirC "a/b/c" m]) ∧
    (∀ (s : Sys) (q : String) (m2 : Nat),
       findEnt s.ents (elems q).dropLast = none → (elems q).dropLast ≠ [] →
       isOkE (mkdirM s q m2) = false) :=
  ⟨rfl, fun s q m2 habs hne => mkdirM_requires_parent s q m2 habs hne⟩

/-- Witness for C2 at permission 509, with the parent-required conjunct
instantiated at the empty filesystem and path "x/y". -/
theorem mkdirAll_creates_chain_witness :
    mkdirAllGo 3 ⟨[], []⟩ "a/b/c" 509 =
      some (none,
        ⟨[(elems "a/b/c", ⟨true, 509⟩), (elems "a/b", ⟨true, 509⟩), (elems "a", ⟨true, 509⟩)], []⟩,
        [PEv.statC "a/b/c", PEv.statC "a/b", PEv.statC "a",
         PEv.mkdirC "a" 509, PEv.mkdirC "a/b" 509, PEv.mkdirC "a/b/c" 509]) ∧
    findEnt (⟨[], []⟩ : Sys).ents (elems "x/y").dropLast = none ∧
    (elems "x/y").dropLast ≠ [] ∧
    isOkE (mkdirM ⟨[], []⟩ "x/y" 400) = false :=
  ⟨(mkdirAll_creates_chain 509).1, rfl, by decide,
   (mkdirAll_creates_chain 509).2 ⟨[], []⟩ "x/y" 400 rfl (by decide)⟩

/-- C9: a second MkdirAll after a successful run is idempotent: it returns
no error, performs only the fast-path stat, and leaves the state (hence
the permission bits of every already-existing directory) unchanged; the
permission argument of the second call plays no role. -/
theorem mkdirAll_idempotent (fuel fuel2 : Nat) (s s1 : Sys) (p : String) (m m2 : Nat)
    (tr : List PEv) (h : mkdirAllGo fuel s p m = some (none, s1, tr)) (hf : 1 ≤ fuel2) :
    mkdirAllGo fuel2 s1 p m2 = some (none, s1, [PEv.statC p]) := by
  obtain ⟨n, hfind, hdir⟩ := mkdirAll_ok_isDir fuel s s1 p m tr h
  cases fuel2 with
  | zero => omega
  | succ f =>
    have hst : statM s1 p = Except.ok n := (statM_ok_iff s1 p n).mpr hfind
    unfold mkdirAllGo
    rw [hst]
    simp [hdir]

/-- Witness for C9: after creating "a/b/c" with permission 509, a second
MkdirAll with permission 400 succeeds, stats once and changes nothing. -/
theorem mkdirAll_idempotent_witness :
    mkdirAllGo 3 ⟨[], []⟩ "a/b/c" 509 =
      some (none, mkdirDemoSys,
        [PEv.statC "a/b/c", PEv.statC "a/b", PEv.statC "a",
         PEv.mkdirC "a" 509, PEv.mkdirC "a/b" 509, PEv.mkdirC "a/b/c" 509]) ∧
    (1 : Nat) ≤ 1 ∧
    mkdirAllGo 1 mkdirDemoSys "a/b/c" 400 = some (none, mkdirDemoSys, [PEv.statC "a/b/c"]) :=
  ⟨rfl, by decide,
   mkdirAll_idempotent 3 1 ⟨[], []⟩ mkdirDemoSys "a/b/c" 509 400
     [PEv.statC "a/b/c", PEv.statC "a/b", PEv.statC "a",
      PEv.mkdirC "a" 509, PEv.mkdirC "a/b" 509, PEv.mkdirC "a/b/c" 509]
     rfl (by decide)⟩

/-- C8: RemoveAll (without the RemoveAllFS capability) on a path whose
stat fails with not-exist returns that not-exist error unchanged; it does
not succeed silently, performs no removal (the state is unchanged), and
the trace is the single stat call. -/
theorem removeAll_notExist (fuel : Nat) (s : Sys) (p : String)
    (hfind : findEnt s.ents (elems p) = none) (hf : 1 ≤ fuel) :
    removeAllGo fuel s p =
      some (some (GoError.pathError "stat" p Err.errNotExist), s, [PEv.statC p]) := by
  cases fuel with
  | zero => omega
  | succ f =>
    have hst : statM s p = Except.error (GoError.pathError "stat" p Err.errNotExist) := by
      unfold statM
      rw [hfind]
    unfold removeAllGo
    rw [hst]

/-- Witness for C8 on the demo tree and the missing path "ghost". -/
theorem removeAll_notExist_witness :
    findEnt demoSys.ents (elems "ghost") = none ∧
    (1 : Nat) ≤ 5 ∧
    removeAllGo 5 demoSys "ghost" =
      some (some (GoError.pathError "stat" "ghost" Err.errNotExist), demoSys,
        [PEv.statC "ghost"]) :=
  ⟨rfl, by decide, removeAll_notExist 5 demoSys "ghost" rfl (by decide)⟩

/-! ### Path decomposition lemmas for the RemoveAll proof -/

/-- Unfolding equation of splitSlash on a cons. -/
theorem splitSlash_cons (c : Char) (cs : List Char) :
    splitSlash (c :: cs) =
      if c = '/' then [] :: splitSlash cs
      else match splitSlash cs with
        | [] => [[c]]
        | e :: es => (c :: e) :: es := rfl

/-- splitSlash always returns at least one element. -/
theorem splitSlash_ne_nil (cs : List Char) : splitSlash cs ≠ [] := by
  cases cs with
  | nil => simp [splitSlash]
  | cons c cs =>
    rw [splitSlash_cons]
    by_cases h : c = '/'
    · simp [h]
    · rw [if_neg h]
      cases hs : splitSlash cs <;> simp

/-- splitSlash distributes over a slash. -/
theorem splitSlash_append (xs ys : List Char) :
    splitSlash (xs ++ '/' :: ys) = splitSlash xs ++ splitSlash ys := by
  induction xs with
  | nil => simp [splitSlash_cons, splitSlash]
  | cons c cs ih =>
    simp only [List.cons_append]
    rw [splitSlash_cons, splitSlash_cons]
    by_cases h : c = '/'
    · rw [if_pos h, if_pos h, ih]
      simp
    · rw [if_neg h, if_neg h, ih]
      cases hs : splitSlash cs with
      | nil => exact absurd hs (splitSlash_ne_nil cs)
      | cons e es => simp

/-- A slash-free character list is a single element. -/
theorem splitSlash_no_slash (cs : List Char) (h : cs.contains '/' = false) :
    splitSlash cs = [cs] := by
  induction cs with
  | nil => rfl
  | cons c cs ih =>
    rw [List.contains_cons, Bool.or_eq_false_iff] at h
    have hc : ¬ c = '/' := by
      intro hc
      rw [hc] at h
      simp at h
    rw [splitSlash_cons, if_neg hc, ih h.2]

/-- The characters of a join, away from the "." special cases. -/
theorem data_pathJoin (root nm : String) (hroot : root ≠ ".") (hnm : nm ≠ ".") :
    (pathJoin root nm).data = root.data ++ '/' :: nm.data := by
  unfold pathJoin
  rw [if_neg hroot, if_neg hnm, String.data_append, String.data_append]
  have hslash : ("/" : String).data = ['/'] := rfl
  rw [hslash]
  simp

/-- Joining a slash-free element name onto a root path appends one element
to the element decomposition. -/
theorem elems_pathJoin (root nm : String) (hroot : root ≠ ".")
    (hdot : nm.data ≠ ['.']) (hsl : nm.data.contains '/' = false) :
    elems (pathJoin root nm) = elems root ++ [nm.data] := by
  have hnm : nm ≠ "." := by
    intro h
    apply hdot
    rw [h]
  unfold elems
  rw [data_pathJoin root nm hroot hnm, splitSlash_append, splitSlash_no_slash nm.data hsl]

/-- A path whose join produced it is never ".". -/
theorem pathJoin_ne_dot (root nm : String) (hroot : root ≠ ".") (hnm : nm ≠ ".") :
    pathJoin root nm ≠ "." := by
  intro h
  have hd := congrArg String.data h
  rw [data_pathJoin root nm hroot hnm] at hd
  have hmem : '/' ∈ (("." : String).data) := by
    rw [← hd]
    exact List.mem_append_right _ (List.mem_cons_self _ _)
  simp at hmem

/-! ### Entry-list lemmas -/

/-- Unfolding equation of findEnt on a cons. -/
theorem findEnt_cons (k2 : Key) (n : Node) (rest : List (Key × Node)) (k : Key) :
    findEnt ((k2, n) :: rest) k = if k2 = k then some n else findEnt rest k := rfl

/-- A hit of findEnt is a member. -/
theorem findEnt_some_mem (ents : List (Key × Node)) (k : Key) (n : Node)
    (h : findEnt ents k = some n) : (k, n) ∈ ents := by
  induction ents with
  | nil => simp [findEnt] at h
  | cons e rest ih =>
    obtain ⟨k2, n2⟩ := e
    rw [findEnt_cons] at h
    by_cases hk : k2 = k
    · rw [if_pos hk] at h
      simp at h
      subst hk
      subst h
      exact List.mem_cons_self _ _
    · rw [if_neg hk] at h
      exact List.mem_cons_of_mem _ (ih h)

/-- With distinct keys, members are findEnt hits. -/
theorem mem_findEnt (ents : List (Key × Node)) (k : Key) (n : Node)
    (hnd : (ents.map (fun e => e.1)).Nodup) (h : (k, n) ∈ ents) :
    findEnt ents k = some n := by
  induction ents with
  | nil => simp at h
  | cons e rest ih =>
    obtain ⟨k2, n2⟩ := e
    rw [List.map_cons, List.nodup_cons] at hnd
    rcases List.mem_cons.mp h with heq | hmem
    · injection heq with h1 h2
      rw [findEnt_cons, if_pos h1.symm, h2]
    · rw [findEnt_cons]
      by_cases hk : k2 = k
      · exfalso
        apply hnd.1
        subst hk
        exact List.mem_map.mpr ⟨(k2, n), hmem, rfl⟩
      · rw [if_neg hk]
        exact ih hnd.2 hmem

/-- findEnt looks through a filter that keeps the key. -/
theorem findEnt_filter_pos (ents : List (Key × Node)) (q : Key × Node → Bool) (k : Key)
    (hq : ∀ n, q (k, n) = true) :
    findEnt (ents.filter q) k = findEnt ents k := by
  induction ents with
  | nil => rfl
  | cons e rest ih =>
    obtain ⟨k2, n2⟩ := e
    rw [List.filter_cons]
    by_cases hk : k2 = k
    · subst hk
      rw [hq n2]
      simp only [if_true]
      rw [findEnt_cons, findEnt_cons, if_pos rfl, if_pos rfl]
    · cases hqe : q (k2, n2) with
      | true =>
        simp only [if_true]
        rw [findEnt_cons, findEnt_cons, if_neg hk, if_neg hk]
        exact ih
      | false =>
        simp only [Bool.false_eq_true, if_false]
        rw [findEnt_cons, if_neg hk]
        exact ih

/-- findEnt misses a key that a filter drops. -/
theorem findEnt_filter_neg (ents : List (Key × Node)) (q : Key × Node → Bool) (k : Key)
    (hq : ∀ n, q (k, n) = false) :
    findEnt (ents.filter q) k = none := by
  induction ents with
  | nil => rfl
  | cons e rest ih =>
    obtain ⟨k2, n2⟩ := e
    rw [List.filter_cons]
    by_cases hk : k2 = k
    · subst hk
      rw [hq n2]
      simp only [Bool.false_eq_true, if_false]
      exact ih
    · cases hqe : q (k2, n2) with
      | true =>
        simp only [if_true]
        rw [findEnt_cons, if_neg hk]
        exact ih
      | false =>
        simp only [Bool.false_eq_true, if_false]
        exact ih

/-- With distinct keys, the entries with a given key are exactly the one
member entry. -/
theorem filter_key_single (ents : List (Key × Node)) (k : Key) (n : Node)
    (hnd : (ents.map (fun e => e.1)).Nodup) (h : (k, n) ∈ ents) :
    ents.filter (fun e => e.1 == k) = [(k, n)] := by
  induction ents with
  | nil => simp at h
  | cons e rest ih =>
    obtain ⟨k2, n2⟩ := e
    rw [List.map_cons, List.nodup_cons] at hnd
    rw [List.filter_cons]
    rcases List.mem_cons.mp h with heq | hmem
    · injection heq with h1 h2
      have hbeq : ((k2, n2).1 == k) = true := by
        simp [h1]
      rw [hbeq]
      simp only [if_true]
      have hnil : rest.filter (fun e => e.1 == k) = [] := by
        rw [List.filter_eq_nil_iff]
        intro a ha hak
        apply hnd.1
        have ha1 : a.1 = k := by simpa using hak
        rw [← h1, ← ha1]
        exact List.mem_map.mpr ⟨a, ha, rfl⟩
      rw [hnil, ← h1, ← h2]
    · have hk : ¬ k2 = k := by
        intro hk
        apply hnd.1
        subst hk
        exact List.mem_map.mpr ⟨(k2, n), hmem, rfl⟩
      have hbeq : ((k2, n2).1 == k) = false := by
        simpa using hk
      rw [hbeq]
      simp only [Bool.false_eq_true, if_false]
      exact ih hnd.2 hmem

/-- Filter length is monotone in the predicate. -/
theorem length_filter_mono {α : Type} (l : List α) (p q : α → Bool)
    (h : ∀ a ∈ l, p a = true → q a = true) :
    (l.filter p).length ≤ (l.filter q).length := by
  rw [← List.countP_eq_length_filter, ← List.countP_eq_length_filter]
  exact List.countP_mono_left h

/-- The subtree below a strict descendant is strictly smaller than the
subtree below an existing ancestor. -/
theorem count_child_lt (ents : List (Key × Node)) (rk ck : Key) (n : Node)
    (hmem : (rk, n) ∈ ents) (hpre : rk <+: ck) (hne : rk ≠ ck) :
    countUnder ck ents < countUnder rk ents := by
  have hlen : rk.length < ck.length := by
    rcases Nat.lt_or_ge rk.length ck.length with h | h
    · exact h
    · exact absurd (hpre.eq_of_length (Nat.le_antisymm hpre.length_le h)) hne
  unfold countUnder
  rw [← List.countP_eq_length_filter, ← List.countP_eq_length_filter]
  have hperm := List.perm_cons_erase hmem
  rw [hperm.countP_eq, hperm.countP_eq]
  have hnotck : ¬ (underB ck (rk, n) = true) := by
    simp only [underB, decide_eq_true_eq]
    intro hck
    have hle : ck.length ≤ rk.length := hck.length_le
    omega
  have hyesrk : underB rk (rk, n) = true := by
    simp [underB]
  rw [List.countP_cons_of_neg _ _ hnotck, List.countP_cons_of_pos _ _ hyesrk]
  exact Nat.lt_succ_of_le (List.countP_mono_left (fun a ham ha => by
    simp only [underB, decide_eq_true_eq] at ha ⊢
    exact hpre.trans ha))

/-! ### Wellformedness lemmas -/

/-- A proper prefix of a concatenation with one element is a prefix of the
left part. -/
theorem proper_pre_concat {α : Type} (p ks : List α) (x : α)
    (h : p <+: ks ++ [x]) (hne : p ≠ ks ++ [x]) : p <+: ks := by
  have hlen : p.length ≤ ks.length := by
    have h1 : p.length ≤ ks.length + 1 := by
      have h2 := h.length_le
      simpa using h2
    rcases Nat.lt_or_ge p.length (ks.length + 1) with h2 | h2
    · omega
    · exfalso
      apply hne
      apply h.eq_of_length
      simp
      omega
  have htake : (ks ++ [x]).take p.length = p := (List.prefix_iff_eq_take.mp h).symm
  rw [List.take_append_of_le_length hlen] at htake
  rw [← htake]
  exact List.take_prefix _ _

/-- Every proper nonempty prefix of an entry key names a directory. -/
theorem prefix_isDir (ents : List (Key × Node)) (hwf : WFents ents) :
    ∀ (k : Key) (n : Node), (k, n) ∈ ents →
      ∀ p, p <+: k → p ≠ k → p ≠ [] → isDirKey ents p = true := by
  intro k
  induction k using List.reverseRecOn with
  | nil =>
    intro n hmem p hpre hne hnil
    exact absurd (List.prefix_nil.mp hpre) hnil
  | append_singleton ks x ih =>
    intro n hmem p hpre hne hnil
    rcases eq_or_ne p ks with hpk | hpk
    · subst hpk
      have hcl := hwf.2.2 _ n hmem
      rw [List.dropLast_concat] at hcl
      rcases hcl with h0 | h1
      · exact absurd h0 hnil
      · exact h1
    · have hpre2 : p <+: ks := proper_pre_concat p ks x hpre hne
      rcases eq_or_ne ks [] with hks | hks
      · subst hks
        exact absurd (List.prefix_nil.mp hpre2) hnil
      · have hcl := hwf.2.2 _ n hmem
        rw [List.dropLast_concat] at hcl
        rcases hcl with h0 | h1
        · exact absurd h0 hks
        · unfold isDirKey at h1
          cases hks2 : findEnt ents ks with
          | none => rw [hks2] at h1; simp at h1
          | some n2 =>
            have hmem2 : (ks, n2) ∈ ents := findEnt_some_mem ents ks n2 hks2
            exact ih n2 hmem2 p hpre2 hpk hnil

/-- A non-directory entry has no strict descendants among the keys. -/
theorem file_no_strict_desc (ents : List (Key × Node)) (hwf : WFents ents)
    (k : Key) (n : Node) (hmem : (k, n) ∈ ents) (hfile : n.isDir = false)
    (q : Key) (n2 : Node) (hq : (q, n2) ∈ ents) (hpre : k <+: q) : q = k := by
  by_contra hne
  have hknil : k ≠ [] := by
    have hg := hwf.2.1 k n hmem
    intro hk
    rw [hk] at hg
    simp [goodKey] at hg
  have hdir := prefix_isDir ents hwf q n2 hq k hpre (fun h => hne h.symm) hknil
  unfold isDirKey at hdir
  rw [mem_findEnt ents k n hwf.1 hmem] at hdir
  simp only [] at hdir
  rw [hfile] at hdir
  simp at hdir

/-- Below a strict descendant of rk there is a direct child of rk on the
way. -/
theorem exists_child_pre (rk q : Key) (hpre : rk <+: q) (hne : q ≠ rk) :
    ∃ c, (rk ++ [c]) <+: q := by
  obtain ⟨t, ht⟩ := hpre
  cases t with
  | nil => exact absurd (by rw [← ht]; simp) hne
  | cons c t2 => exact ⟨c, ⟨t2, by rw [← ht]; simp⟩⟩

/-- The direct child of rk on the way to a strict descendant is itself an
entry. -/
theorem child_entry (ents : List (Key × Node)) (hwf : WFents ents)
    (q : Key) (n2 : Node) (hq : (q, n2) ∈ ents)
    (rk : Key) (c : List Char) (hpre : (rk ++ [c]) <+: q) :
    ∃ nc, (rk ++ [c], nc) ∈ ents := by
  rcases eq_or_ne (rk ++ [c]) q with he | hne
  · exact ⟨n2, by rw [he]; exact hq⟩
  · have hdir := prefix_isDir ents hwf q n2 hq (rk ++ [c]) hpre hne (by simp)
    unfold isDirKey at hdir
    cases hf : findEnt ents (rk ++ [c]) with
    | none => rw [hf] at hdir; simp at hdir
    | some nc => exact ⟨nc, findEnt_some_mem _ _ _ hf⟩

/-- Erasing a whole subtree preserves wellformedness. -/
theorem WFents_eraseUnder (ents : List (Key × Node)) (r : Key) (hwf : WFents ents) :
    WFents (eraseUnder r ents) := by
  obtain ⟨hnd, hgood, hcl⟩ := hwf
  unfold eraseUnder
  refine ⟨?_, ?_, ?_⟩
  · exact hnd.sublist ((List.filter_sublist ents).map _)
  · intro k n hmem
    exact hgood k n (List.mem_filter.mp hmem).1
  · intro k n hmem
    obtain ⟨hm, hp⟩ := List.mem_filter.mp hmem
    rcases hcl k n hm with h0 | h1
    · exact Or.inl h0
    · right
      have hnotr : ¬ r <+: k.dropLast := by
        intro hr
        have hrk : r <+: k := hr.trans (List.dropLast_prefix k)
        simp [underB, hrk] at hp
      have heq : findEnt (ents.filter (fun e => !(underB r e))) k.dropLast =
          findEnt ents k.dropLast := by
        apply findEnt_filter_pos
        intro nn
        simp [underB, hnotr]
      unfold isDirKey at h1 ⊢
      rw [heq]
      exact h1

/-! ### Permutation and trace helpers -/

/-- A filter by a disjunction of disjoint tests splits, up to permutation,
into the two filters. -/
theorem filter_or_perm {α : Type} (l : List α) (p q r : α → Bool)
    (hor : ∀ e ∈ l, p e = (q e || r e)) (hdis : ∀ e ∈ l, ¬(q e = true ∧ r e = true)) :
    List.Perm (l.filter p) (l.filter q ++ l.filter r) := by
  induction l with
  | nil => simp
  | cons x rest ih =>
    have ihr := ih (fun e he => hor e (List.mem_cons_of_mem _ he))
      (fun e he => hdis e (List.mem_cons_of_mem _ he))
    rw [List.filter_cons, List.filter_cons, List.filter_cons,
      hor x (List.mem_cons_self _ _)]
    cases hq : q x with
    | true =>
      have hr : r x = false := by
        cases hr : r x with
        | true => exact absurd ⟨hq, hr⟩ (hdis x (List.mem_cons_self _ _))
        | false => rfl
      rw [hr]
      simpa using ihr.cons x
    | false =>
      cases hr : r x with
      | true =>
        simp only [Bool.false_or, if_true, Bool.false_eq_true, if_false]
        exact (ihr.cons x).trans List.perm_middle.symm
      | false =>
        simpa using ihr

/-- Two siblings below rk with a common descendant are the same child. -/
theorem sibling_keys_eq (rk : Key) (a b : List Char) (l : Key)
    (h1 : (rk ++ [a]) <+: l) (h2 : (rk ++ [b]) <+: l) : a = b := by
  have hab : rk ++ [a] = rk ++ [b] := by
    rcases List.prefix_or_prefix_of_prefix h1 h2 with h | h
    · exact h.eq_of_length (by simp)
    · exact (h.eq_of_length (by simp)).symm
  simpa using List.append_cancel_left hab

/-- Removing a non-directory entry by key removes its whole (trivial)
subtree. -/
theorem eraseKey_file_eq (ents : List (Key × Node)) (hwf : WFents ents)
    (ck : Key) (nd : Node) (hmem : (ck, nd) ∈ ents) (hfile : nd.isDir = false) :
    eraseKey ents ck = eraseUnder ck ents := by
  unfold eraseKey eraseUnder
  apply List.filter_congr
  intro e he
  by_cases hp : ck <+: e.1
  · have heq : e.1 = ck :=
      file_no_strict_desc ents hwf ck nd hmem hfile e.1 e.2 (by simpa using he) hp
    simp [underB, hp, heq]
  · have hne : e.1 ≠ ck := by
      intro h
      exact hp (by rw [h])
    simp [underB, hp, hne]

/-- The non-directory subtree filter is the single entry. -/
theorem filter_under_file (ents : List (Key × Node)) (hwf : WFents ents)
    (ck : Key) (nd : Node) (hmem : (ck, nd) ∈ ents) (hfile : nd.isDir = false) :
    ents.filter (underB ck) = [(ck, nd)] := by
  have hcongr : ents.filter (underB ck) = ents.filter (fun e => e.1 == ck) := by
    apply List.filter_congr
    intro e he
    by_cases hp : ck <+: e.1
    · have heq : e.1 = ck :=
        file_no_strict_desc ents hwf ck nd hmem hfile e.1 e.2 (by simpa using he) hp
      simp [underB, hp, heq]
    · have hne : e.1 ≠ ck := by
        intro h
        exact hp (by rw [h])
      simp [underB, hp, hne]
  rw [hcongr]
  exact filter_key_single ents ck nd hwf.1 hmem

/-- removeKeys distributes over trace concatenation. -/
theorem removeKeys_append (t1 t2 : List PEv) :
    removeKeys (t1 ++ t2) = removeKeys t1 ++ removeKeys t2 :=
  List.filterMap_append t1 t2 _

/-- removeKeys records a removal. -/
theorem removeKeys_cons_remove (p : String) (t : List PEv) :
    removeKeys (PEv.removeC p :: t) = elems p :: removeKeys t := rfl

/-- removeKeys skips a stat. -/
theorem removeKeys_cons_stat (p : String) (t : List PEv) :
    removeKeys (PEv.statC p :: t) = removeKeys t := rfl

/-- removeKeys skips a directory listing. -/
theorem removeKeys_cons_readDir (p : String) (t : List PEv) :
    removeKeys (PEv.readDirC p :: t) = removeKeys t := rfl

/-- A key has no children exactly when no entry is a direct child of it. -/
theorem childKeys_eq_nil_iff (ents : List (Key × Node)) (k : Key) :
    childKeys ents k = [] ↔ ∀ e ∈ ents, ¬((e.1 != [] && e.1.dropLast == k) = true) := by
  unfold childKeys
  exact List.filter_eq_nil_iff

/-- Filtering cannot grow a subtree count. -/
theorem countUnder_filter_le (r : Key) (ents : List (Key × Node)) (q : Key × Node → Bool) :
    countUnder r (ents.filter q) ≤ countUnder r ents := by
  unfold countUnder
  exact ((List.filter_sublist ents).filter _).length_le

/-- The children loop removes exactly the subtrees of the listed children:
the inductive step of the RemoveAll success proof. -/
theorem runLoop_ok (fuel : Nat) (root : String) (hdot : root ≠ ".")
    (hrec : RemoveAllSpec fuel) :
    ∀ (files : List (String × Bool)) (ents : List (Key × Node)),
      WFents ents →
      (∀ f ∈ files, ∃ nd, (elems root ++ [f.1.data], nd) ∈ ents ∧ nd.isDir = f.2 ∧
        goodElem f.1.data = true ∧ f.1.data.contains '/' = false) →
      files.Pairwise (fun f g => f.1.data ≠ g.1.data) →
      (∀ f ∈ files, countUnder (elems root ++ [f.1.data]) ents < fuel) →
      ∃ tr,
        runLoop (removeAllGo fuel) root ⟨ents, []⟩ files =
          some (none, ⟨ents.filter (fun e => !(insideAny (elems root) files e)), []⟩, tr) ∧
        (∀ k ∈ removeKeys tr, ∃ f ∈ files, (elems root ++ [f.1.data]) <+: k) ∧
        List.Perm (removeKeys tr)
          ((ents.filter (insideAny (elems root) files)).map (fun e => e.1)) ∧
        (removeKeys tr).Pairwise (fun a b => ¬ (a <+: b)) := by
  intro files
  induction files with
  | nil =>
    intro ents hwf hfiles hpw hcount
    refine ⟨[], ?_, ?_, ?_, ?_⟩
    · have hfe : ents.filter (fun e => !(insideAny (elems root) [] e)) = ents := by
        simp [insideAny]
      rw [hfe]
      rfl
    · intro k hk
      simp [removeKeys] at hk
    · simp [insideAny, removeKeys]
    · simp [removeKeys]
  | cons f rest ih =>
    obtain ⟨name, dirbit⟩ := f
    intro ents hwf hfiles hpw hcount
    obtain ⟨nd, hndmem, hnddir, hgoodnm, hslnm⟩ :=
      hfiles (name, dirbit) (List.mem_cons_self _ _)
    simp only [goodElem, Bool.not_eq_true', Bool.or_eq_false_iff, beq_eq_false_iff_ne,
      ne_eq] at hgoodnm
    have hdotnm : name.data ≠ ['.'] := hgoodnm.1.2
    have hnmdot : name ≠ "." := by
      intro h
      apply hdotnm
      rw [h]
    have hjoin : elems (pathJoin root name) = elems root ++ [name.data] :=
      elems_pathJoin root name hdot hdotnm hslnm
    have hqdot : pathJoin root name ≠ "." := pathJoin_ne_dot root name hdot hnmdot
    have hpwhead := (List.pairwise_cons.mp hpw).1
    have hpwrest := (List.pairwise_cons.mp hpw).2
    have hdisj : ∀ (e : Key × Node), underB (elems root ++ [name.data]) e = true →
        insideAny (elems root) rest e = true → False := by
      intro e h1 h2
      simp only [insideAny, List.any_eq_true] at h2
      obtain ⟨g, hg, hung⟩ := h2
      simp only [underB, decide_eq_true_eq] at h1 hung
      exact (hpwhead g hg) (sibling_keys_eq _ _ _ _ h1 hung)
    have hfiles1 : ∀ g ∈ rest, ∃ nd',
        (elems root ++ [g.1.data], nd') ∈ eraseUnder (elems root ++ [name.data]) ents ∧
        nd'.isDir = g.2 ∧ goodElem g.1.data = true ∧ g.1.data.contains '/' = false := by
      intro g hg
      obtain ⟨nd', hmem', hdir', hgood', hsl'⟩ := hfiles g (List.mem_cons_of_mem _ hg)
      refine ⟨nd', ?_, hdir', hgood', hsl'⟩
      apply List.mem_filter.mpr
      refine ⟨hmem', ?_⟩
      have hnp : ¬ ((elems root ++ [name.data]) <+: (elems root ++ [g.1.data])) := by
        intro hp
        exact (hpwhead g hg) (sibling_keys_eq _ _ _ _ hp (List.prefix_refl _))
      simp [underB, hnp]
    have hcount1 : ∀ g ∈ rest,
        countUnder (elems root ++ [g.1.data]) (eraseUnder (elems root ++ [name.data]) ents) < fuel := by
      intro g hg
      exact Nat.lt_of_le_of_lt (countUnder_filter_le _ ents _)
        (hcount g (List.mem_cons_of_mem _ hg))
    have ihr := ih (eraseUnder (elems root ++ [name.data]) ents)
      (WFents_eraseUnder ents _ hwf) hfiles1 hpwrest hcount1
    obtain ⟨tr2, hrun2, hbound2, hperm2, hpw2⟩ := ihr
    have hfeq : (eraseUnder (elems root ++ [name.data]) ents).filter
        (insideAny (elems root) rest) = ents.filter (insideAny (elems root) rest) := by
      unfold eraseUnder
      rw [List.filter_filter]
      apply List.filter_congr
      intro e he
      cases hin : insideAny (elems root) rest e with
      | false => simp
      | true =>
        cases hub : underB (elems root ++ [name.data]) e with
        | true => exact absurd (hdisj e hub hin) (by simp)
        | false => simp [hub]
    have hstate : (eraseUnder (elems root ++ [name.data]) ents).filter
        (fun e => !(insideAny (elems root) rest e)) =
        ents.filter (fun e => !(insideAny (elems root) ((name, dirbit) :: rest) e)) := by
      unfold eraseUnder
      rw [List.filter_filter]
      apply List.filter_congr
      intro e he
      simp [insideAny, Bool.not_or, Bool.and_comm]
    have hsplit : List.Perm (ents.filter (insideAny (elems root) ((name, dirbit) :: rest)))
        (ents.filter (underB (elems root ++ [name.data])) ++
          ents.filter (insideAny (elems root) rest)) := by
      apply filter_or_perm
      · intro e he
        simp [insideAny]
      · intro e he
        rintro ⟨h1, h2⟩
        exact hdisj e h1 h2
    rw [hfeq] at hperm2
    cases dirbit with
    | true =>
      have hfindq : findEnt (Sys.ents ⟨ents, []⟩) (elems (pathJoin root name)) = some nd := by
        rw [hjoin]
        exact mem_findEnt ents _ nd hwf.1 hndmem
      have hcntq : countUnder (elems (pathJoin root name)) (Sys.ents ⟨ents, []⟩) < fuel := by
        rw [hjoin]
        exact hcount (name, true) (List.mem_cons_self _ _)
      obtain ⟨tr1, hrun1, hbound1, hperm1, hpw1⟩ :=
        hrec ⟨ents, []⟩ (pathJoin root name) nd hwf rfl hqdot hfindq hcntq
      rw [hjoin] at hrun1 hbound1 hperm1
      refine ⟨tr1 ++ tr2, ?_, ?_, ?_, ?_⟩
      · simp only [runLoop, if_true]
        rw [hrun1]
        simp only []
        rw [hrun2]
        simp only []
        rw [hstate]
      · intro k hk
        rw [removeKeys_append] at hk
        rcases List.mem_append.mp hk with h1 | h2
        · exact ⟨(name, true), List.mem_cons_self _ _, hbound1 k h1⟩
        · obtain ⟨g, hg, hp⟩ := hbound2 k h2
          exact ⟨g, List.mem_cons_of_mem _ hg, hp⟩
      · rw [removeKeys_append]
        refine (hperm1.append hperm2).trans ?_
        rw [← List.map_append]
        exact hsplit.symm.map _
      · rw [removeKeys_append, List.pairwise_append]
        refine ⟨hpw1, hpw2, ?_⟩
        intro a ha b hb hab
        obtain ⟨g, hg, hckb⟩ := hbound2 b hb
        exact (hpwhead g hg) (sibling_keys_eq _ _ _ _ ((hbound1 a ha).trans hab) hckb)
    | false =>
      have hfile : nd.isDir = false := hnddir
      have hrm : removeM ⟨ents, []⟩ (pathJoin root name) =
          Except.ok ⟨eraseUnder (elems root ++ [name.data]) ents, []⟩ := by
        unfold removeM
        rw [hjoin]
        rw [if_neg (List.not_mem_nil _)]
        rw [mem_findEnt ents _ nd hwf.1 hndmem]
        simp only []
        rw [hfile]
        simp only [Bool.false_and, Bool.false_eq_true, if_false]
        rw [eraseKey_file_eq ents hwf _ nd hndmem hfile]
      refine ⟨PEv.removeC (pathJoin root name) :: tr2, ?_, ?_, ?_, ?_⟩
      · simp only [runLoop, Bool.false_eq_true, if_false]
        rw [hrm]
        simp only []
        rw [hrun2]
        simp only []
        rw [hstate]
      · intro k hk
        rw [removeKeys_cons_remove, hjoin] at hk
        rcases List.mem_cons.mp hk with h1 | h2
        · exact ⟨(name, false), List.mem_cons_self _ _, by rw [h1]⟩
        · obtain ⟨g, hg, hp⟩ := hbound2 k h2
          exact ⟨g, List.mem_cons_of_mem _ hg, hp⟩
      · rw [removeKeys_cons_remove, hjoin]
        have hsingle : ents.filter (underB (elems root ++ [name.data])) = [((elems root ++ [name.data]), nd)] :=
          filter_under_file ents hwf _ nd hndmem hfile
        refine (hperm2.cons _).trans ?_
        have : (elems root ++ [name.data]) :: (ents.filter (insideAny (elems root) rest)).map (fun e => e.1) =
            (ents.filter (underB (elems root ++ [name.data]))).map (fun e => e.1) ++
              (ents.filter (insideAny (elems root) rest)).map (fun e => e.1) := by
          rw [hsingle]
          rfl
        rw [this, ← List.map_append]
        exact hsplit.symm.map _
      · rw [removeKeys_cons_remove, hjoin, List.pairwise_cons]
        refine ⟨?_, hpw2⟩
        intro b hb hab
        obtain ⟨g, hg, hckb⟩ := hbound2 b hb
        exact (hpwhead g hg) (sibling_keys_eq _ _ _ _ hab hckb)

/-- RemoveAll success: at every fuel the fallback satisfies the removal
specification (state, coverage, order). -/
theorem removeAll_spec_all (fuel : Nat) : RemoveAllSpec fuel := by
  induction fuel with
  | zero =>
    intro s q qn hwf hfz hdot hfind hcount
    exact absurd hcount (Nat.not_lt_zero _)
  | succ fuel ih =>
    intro s q qn hwf hfz hdot hfind hcount
    obtain ⟨ents, sfz⟩ := s
    have hfz2 : sfz = [] := hfz
    subst hfz2
    have hfind2 : findEnt ents (elems q) = some qn := hfind
    have hcount2 : countUnder (elems q) ents < fuel + 1 := hcount
    have hwf2 : WFents ents := hwf
    have hqmem : (elems q, qn) ∈ ents := findEnt_some_mem ents _ qn hfind2
    have hstat : statM ⟨ents, []⟩ q = Except.ok qn := by
      unfold statM
      rw [hfind2]
    cases hdir : qn.isDir with
    | false =>
      have hrm : removeM ⟨ents, []⟩ q = Except.ok ⟨eraseUnder (elems q) ents, []⟩ := by
        unfold removeM
        rw [if_neg (List.not_mem_nil _), hfind2]
        simp only []
        rw [hdir]
        simp only [Bool.false_and, Bool.false_eq_true, if_false]
        rw [eraseKey_file_eq ents hwf2 _ qn hqmem hdir]
      refine ⟨[PEv.statC q, PEv.removeC q], ?_, ?_, ?_, ?_⟩
      · unfold removeAllGo
        rw [hstat]
        simp only []
        rw [hdir]
        simp only [Bool.not_false, if_true]
        rw [hrm]
      · intro k hk
        simp only [removeKeys_cons_stat, removeKeys_cons_remove, removeKeys] at hk
        simp at hk
        rw [hk]
      · rw [filter_under_file ents hwf2 _ qn hqmem hdir]
        simp [removeKeys]
      · simp [removeKeys]
    | true =>
      have hchildfile : ∀ (c : List Char) (nc : Node), (elems q ++ [c], nc) ∈ ents →
          ((⟨c⟩ : String), nc.isDir) ∈
            (childKeys ents (elems q)).map (fun e => ((⟨e.1.getLastD []⟩ : String), e.2.isDir)) := by
        intro c nc hmem
        apply List.mem_map.mpr
        refine ⟨(elems q ++ [c], nc), ?_, ?_⟩
        · apply List.mem_filter.mpr
          refine ⟨hmem, ?_⟩
          simp [List.dropLast_concat]
        · simp
      have hreaddir : readDirM ⟨ents, []⟩ q = Except.ok
          ((childKeys ents (elems q)).map (fun e => ((⟨e.1.getLastD []⟩ : String), e.2.isDir))) := by
        unfold readDirM
        rw [hfind2]
        simp only []
        rw [hdir]
        simp only [if_true]
      -- loop hypotheses
      have hfiles : ∀ f ∈ (childKeys ents (elems q)).map
            (fun e => ((⟨e.1.getLastD []⟩ : String), e.2.isDir)),
          ∃ nd, (elems q ++ [f.1.data], nd) ∈ ents ∧ nd.isDir = f.2 ∧
            goodElem f.1.data = true ∧ f.1.data.contains '/' = false := by
        intro f hf
        obtain ⟨⟨k2, n2⟩, hmemck, hfe⟩ := List.mem_map.mp hf
        obtain ⟨hmem2, hpred⟩ := List.mem_filter.mp hmemck
        simp only [Bool.and_eq_true, bne_iff_ne, ne_eq, beq_iff_eq] at hpred
        have hk2ne : k2 ≠ [] := hpred.1
        have hgl : k2.getLastD [] = k2.getLast hk2ne := by
          simp [List.getLastD_eq_getLast?, List.getLast?_eq_getLast _ hk2ne]
        have hk2 : elems q ++ [k2.getLastD []] = k2 := by
          rw [hgl, ← hpred.2]
          exact List.dropLast_append_getLast hk2ne
        have hgood2 := hwf2.2.1 k2 n2 hmem2
        simp only [goodKey, Bool.and_eq_true, bne_iff_ne, ne_eq, List.all_eq_true] at hgood2
        have hlastmem : k2.getLastD [] ∈ k2 := by
          rw [hgl]
          exact List.getLast_mem hk2ne
        have hlast := hgood2.2 _ hlastmem
        have hsl2 : (k2.getLastD []).contains '/' = false := by
          simpa using hlast.2
        refine ⟨n2, ?_, ?_, ?_, ?_⟩
        · rw [← hfe]
          simp only []
          rw [hk2]
          exact hmem2
        · rw [← hfe]
        · rw [← hfe]
          exact hlast.1
        · rw [← hfe]
          exact hsl2
      have hrecon : ∀ (k2 : Key), k2 ≠ [] → k2.dropLast = elems q →
          k2 = elems q ++ [k2.getLastD []] := by
        intro k2 hne hdl
        have hgl : k2.getLastD [] = k2.getLast hne := by
          simp [List.getLastD_eq_getLast?, List.getLast?_eq_getLast _ hne]
        rw [hgl, ← hdl]
        exact (List.dropLast_append_getLast hne).symm
      have hreconck : ∀ e ∈ childKeys ents (elems q), e.1 = elems q ++ [e.1.getLastD []] := by
        intro e he
        obtain ⟨_, hpred⟩ := List.mem_filter.mp he
        simp only [Bool.and_eq_true, bne_iff_ne, ne_eq, beq_iff_eq] at hpred
        exact hrecon e.1 hpred.1 hpred.2
      have hpw : ((childKeys ents (elems q)).map
            (fun e => ((⟨e.1.getLastD []⟩ : String), e.2.isDir))).Pairwise
          (fun f g => f.1.data ≠ g.1.data) := by
        rw [List.pairwise_map]
        have hnod : ((childKeys ents (elems q)).map (fun e => e.1)).Nodup :=
          hwf2.1.sublist ((List.filter_sublist ents).map _)
        have hpwk : (childKeys ents (elems q)).Pairwise (fun a b => a.1 ≠ b.1) :=
          List.pairwise_map.mp hnod
        refine hpwk.imp_of_mem ?_
        intro a b ha hb hne heq
        apply hne
        rw [hreconck a ha, hreconck b hb]
        have heq2 : a.1.getLastD [] = b.1.getLastD [] := heq
        rw [heq2]
      have hcounts : ∀ f ∈ (childKeys ents (elems q)).map
            (fun e => ((⟨e.1.getLastD []⟩ : String), e.2.isDir)),
          countUnder (elems q ++ [f.1.data]) ents < fuel := by
        intro f hf
        obtain ⟨e2, hmemck, hfe⟩ := List.mem_map.mp hf
        have hrc := hreconck e2 hmemck
        have hfd : f.1.data = e2.1.getLastD [] := by
          rw [← hfe]
        rw [hfd, ← hrc]
        have hpre : elems q <+: e2.1 := by
          rw [hrc]
          exact List.prefix_append _ _
        have hneq : elems q ≠ e2.1 := by
          intro h
          have hlen := congrArg List.length (h.trans hrc)
          simp at hlen
        have hlt := count_child_lt ents (elems q) e2.1 qn hqmem hpre hneq
        omega
      obtain ⟨tr2, hrun2, hbound2, hperm2, hpw2⟩ :=
        runLoop_ok fuel q hdot ih
          ((childKeys ents (elems q)).map (fun e => ((⟨e.1.getLastD []⟩ : String), e.2.isDir)))
          ents hwf2 hfiles hpw hcounts
      have hkeep : ∀ n : Node, (fun e => !(insideAny (elems q)
          ((childKeys ents (elems q)).map (fun e => ((⟨e.1.getLastD []⟩ : String), e.2.isDir))) e))
          ((elems q), n) = true := by
        intro n
        simp only [insideAny, Bool.not_eq_true', List.any_eq_false]
        intro f hf
        simp only [underB, decide_eq_true_eq]
        intro hp
        have hlen := hp.length_le
        simp at hlen
      have hfind3 : findEnt (ents.filter (fun e => !(insideAny (elems q)
          ((childKeys ents (elems q)).map (fun e => ((⟨e.1.getLastD []⟩ : String), e.2.isDir))) e)))
          (elems q) = some qn := by
        rw [findEnt_filter_pos _ _ _ hkeep]
        exact hfind2
      have hnochild : childKeys (ents.filter (fun e => !(insideAny (elems q)
          ((childKeys ents (elems q)).map (fun e => ((⟨e.1.getLastD []⟩ : String), e.2.isDir))) e)))
          (elems q) = [] := by
        apply (childKeys_eq_nil_iff _ _).mpr
        intro e he
        obtain ⟨hmem3, hout⟩ := List.mem_filter.mp he
        intro hchild
        simp only [Bool.and_eq_true, bne_iff_ne, ne_eq, beq_iff_eq] at hchild
        have he1 : e.1 = elems q ++ [e.1.getLastD []] := hrecon e.1 hchild.1 hchild.2
        have hmm : (elems q ++ [e.1.getLastD []], e.2) ∈ ents := by
          rw [← he1]
          simpa using hmem3
        have hf := hchildfile _ _ hmm
        have hin : insideAny (elems q)
            ((childKeys ents (elems q)).map (fun e => ((⟨e.1.getLastD []⟩ : String), e.2.isDir))) e
            = true := by
          simp only [insideAny, List.any_eq_true]
          refine ⟨_, hf, ?_⟩
          simp only [underB, decide_eq_true_eq]
          show (elems q ++ [((⟨e.1.getLastD []⟩ : String)).data]) <+: e.1
          rw [show ((⟨e.1.getLastD []⟩ : String)).data = e.1.getLastD [] from rfl, ← he1]
        simp only [Bool.not_eq_true'] at hout
        rw [hin] at hout
        exact absurd hout (by decide)
      have hrm2 : removeM ⟨ents.filter (fun e => !(insideAny (elems q)
          ((childKeys ents (elems q)).map (fun e => ((⟨e.1.getLastD []⟩ : String), e.2.isDir))) e)), []⟩
          q = Except.ok ⟨eraseKey (ents.filter (fun e => !(insideAny (elems q)
            ((childKeys ents (elems q)).map (fun e => ((⟨e.1.getLastD []⟩ : String), e.2.isDir))) e)))
            (elems q), []⟩ := by
        unfold removeM
        rw [if_neg (List.not_mem_nil _), hfind3]
        simp only []
        rw [hnochild]
        simp only [beq_self_eq_true, Bool.not_true, Bool.and_false, Bool.false_eq_true, if_false]
      have hchar : ∀ e ∈ ents, underB (elems q) e = (insideAny (elems q)
          ((childKeys ents (elems q)).map (fun e => ((⟨e.1.getLastD []⟩ : String), e.2.isDir))) e ||
          (e.1 == elems q)) := by
        intro e he
        cases hu : underB (elems q) e with
        | false =>
          symm
          simp only [underB, decide_eq_false_iff_not] at hu
          simp only [Bool.or_eq_false_iff]
          constructor
          · simp only [insideAny, List.any_eq_false]
            intro f hf
            simp only [underB, decide_eq_true_eq]
            intro hp
            exact hu ((List.prefix_append _ _).trans hp)
          · simp only [beq_eq_false_iff_ne, ne_eq]
            intro heq
            exact hu (by rw [heq])
        | true =>
          symm
          simp only [underB, decide_eq_true_eq] at hu
          rcases eq_or_ne e.1 (elems q) with he1 | hne1
          · simp [he1]
          · obtain ⟨c, hc⟩ := exists_child_pre (elems q) e.1 hu hne1
            obtain ⟨nc, hncmem⟩ := child_entry ents hwf2 e.1 e.2 (by simpa using he) (elems q) c hc
            have hf := hchildfile c nc hncmem
            have hin : insideAny (elems q)
                ((childKeys ents (elems q)).map (fun e => ((⟨e.1.getLastD []⟩ : String), e.2.isDir)))
                e = true := by
              simp only [insideAny, List.any_eq_true]
              refine ⟨_, hf, ?_⟩
              simp only [underB, decide_eq_true_eq]
              exact hc
            rw [hin]
            simp
      have hdis2 : ∀ e ∈ ents, ¬(insideAny (elems q)
          ((childKeys ents (elems q)).map (fun e => ((⟨e.1.getLastD []⟩ : String), e.2.isDir))) e
          = true ∧ (e.1 == elems q) = true) := by
        rintro e he ⟨h1, h2⟩
        simp only [insideAny, List.any_eq_true] at h1
        obtain ⟨f, hf, hp⟩ := h1
        simp only [underB, decide_eq_true_eq] at hp
        simp only [beq_iff_eq] at h2
        have hl1 := hp.length_le
        rw [h2] at hl1
        simp at hl1
      have hstateq : eraseKey (ents.filter (fun e => !(insideAny (elems q)
          ((childKeys ents (elems q)).map (fun e => ((⟨e.1.getLastD []⟩ : String), e.2.isDir))) e)))
          (elems q) = eraseUnder (elems q) ents := by
        unfold eraseKey eraseUnder
        rw [List.filter_filter]
        apply List.filter_congr
        intro e he
        rw [hchar e he]
        cases h1 : insideAny (elems q)
            ((childKeys ents (elems q)).map (fun e => ((⟨e.1.getLastD []⟩ : String), e.2.isDir))) e <;>
          cases h2 : (e.1 == elems q) <;>
          simp [bne, h2]
      have htrk : removeKeys (PEv.statC q :: PEv.readDirC q :: (tr2 ++ [PEv.removeC q])) =
          removeKeys tr2 ++ [elems q] := by
        rw [removeKeys_cons_stat, removeKeys_cons_readDir, removeKeys_append]
        rfl
      refine ⟨PEv.statC q :: PEv.readDirC q :: (tr2 ++ [PEv.removeC q]), ?_, ?_, ?_, ?_⟩
      · unfold removeAllGo
        rw [hstat]
        simp only []
        rw [hdir]
        simp only [Bool.not_true, Bool.false_eq_true, if_false]
        rw [hreaddir]
        simp only []
        rw [hrun2]
        simp only []
        rw [hrm2]
        simp only []
        rw [hstateq]
      · intro k hk
        rw [htrk] at hk
        rcases List.mem_append.mp hk with h1 | h2
        · obtain ⟨f, hf, hp⟩ := hbound2 k h1
          exact (List.prefix_append _ _).trans hp
        · simp at h2
          rw [h2]
      · rw [htrk]
        have hsplit2 := filter_or_perm ents (underB (elems q)) (insideAny (elems q)
          ((childKeys ents (elems q)).map (fun e => ((⟨e.1.getLastD []⟩ : String), e.2.isDir))))
          (fun e => e.1 == elems q) hchar hdis2
        have hsingle : ents.filter (fun e => e.1 == elems q) = [(elems q, qn)] :=
          filter_key_single ents _ qn hwf2.1 hqmem
        refine (hperm2.append (List.Perm.refl [elems q])).trans ?_
        have hmid : (ents.filter (insideAny (elems q)
            ((childKeys ents (elems q)).map (fun e => ((⟨e.1.getLastD []⟩ : String), e.2.isDir))))).map
              (fun e => e.1) ++ [elems q] =
            ((ents.filter (insideAny (elems q)
              ((childKeys ents (elems q)).map (fun e => ((⟨e.1.getLastD []⟩ : String), e.2.isDir))))) ++
              (ents.filter (fun e => e.1 == elems q))).map (fun e => e.1) := by
          rw [List.map_append, hsingle]
          rfl
        rw [hmid]
        exact hsplit2.symm.map _
      · rw [htrk, List.pairwise_append]
        refine ⟨hpw2, by simp, ?_⟩
        intro a ha b hb
        simp only [List.mem_singleton] at hb
        subst hb
        intro hab
        obtain ⟨f, hf, hp⟩ := hbound2 a ha
        have hl1 := hp.length_le
        have hl2 := hab.length_le
        simp at hl1
        omega

/-- Every statM error is a stat path error at the argument path, so the
stat call is the event that produced it. -/
theorem statM_err_shape (s : Sys) (p : String) (e : GoError)
    (h : statM s p = Except.error e) : errEvent e = some (PEv.statC p) := by
  unfold statM at h
  split at h
  · exact absurd h (by simp)
  · simp only [Except.error.injEq] at h
    subst h
    rfl

/-- Every readDirM error is a readdir path error at the argument path, so
the directory listing is the event that produced it. -/
theorem readDirM_err_shape (s : Sys) (p : String) (e : GoError)
    (h : readDirM s p = Except.error e) : errEvent e = some (PEv.readDirC p) := by
  unfold readDirM at h
  split at h
  · simp only [Except.error.injEq] at h
    subst h
    rfl
  · split at h
    · exact absurd h (by simp)
    · simp only [Except.error.injEq] at h
      subst h
      rfl

/-- Every removeM error is a remove path error at the argument path, so
the remove call is the event that produced it. -/
theorem removeM_err_shape (s : Sys) (p : String) (e : GoError)
    (h : removeM s p = Except.error e) : errEvent e = some (PEv.removeC p) := by
  unfold removeM at h
  split at h
  · simp only [Except.error.injEq] at h
    subst h
    rfl
  · split at h
    · simp only [Except.error.injEq] at h
      subst h
      rfl
    · split at h
      · simp only [Except.error.injEq] at h
        subst h
        rfl
      · exact absurd h (by simp)

/-- The children loop of RemoveAll aborts on the first failure: when the
loop returns an error, the trace ends at the very primitive call that
produced that error, so no sibling after the failing one was attempted
(assuming the recursive call, the RemoveAll dispatch, has the same
property). -/
theorem runLoop_err (recRemove : Sys → String → Option (Option GoError × Sys × List PEv))
    (root : String)
    (hrec : ∀ (s : Sys) (p : String) (e : GoError) (s1 : Sys) (tr : List PEv),
      recRemove s p = some (some e, s1, tr) →
      ∃ ev, errEvent e = some ev ∧ tr.getLast? = some ev) :
    ∀ (files : List (String × Bool)) (s : Sys) (e : GoError) (s1 : Sys) (tr : List PEv),
      runLoop recRemove root s files = some (some e, s1, tr) →
      ∃ ev, errEvent e = some ev ∧ tr.getLast? = some ev := by
  intro files
  induction files with
  | nil =>
    intro s e s1 tr h
    exact absurd h (by simp [runLoop])
  | cons f rest ih =>
    obtain ⟨name, dirbit⟩ := f
    intro s e s1 tr h
    cases dirbit with
    | true =>
      simp only [runLoop, if_true] at h
      cases hr : recRemove s (pathJoin root name) with
      | none =>
        rw [hr] at h
        exact absurd h (by simp)
      | some val =>
        obtain ⟨oe, sx, trx⟩ := val
        rw [hr] at h
        cases oe with
        | some e2 =>
          simp only [Option.some.injEq, Prod.mk.injEq] at h
          obtain ⟨h1, h2, h3⟩ := h
          subst h1
          obtain ⟨ev, hev, hlast⟩ := hrec s (pathJoin root name) _ sx trx hr
          refine ⟨ev, hev, ?_⟩
          rw [← h3]
          exact hlast
        | none =>
          simp only [] at h
          cases hr2 : runLoop recRemove root sx rest with
          | none =>
            rw [hr2] at h
            exact absurd h (by simp)
          | some val2 =>
            obtain ⟨r2, s2, tr2⟩ := val2
            rw [hr2] at h
            simp only [Option.some.injEq, Prod.mk.injEq] at h
            obtain ⟨h1, h2, h3⟩ := h
            subst h1
            obtain ⟨ev, hev, hlast⟩ := ih sx e s2 tr2 hr2
            refine ⟨ev, hev, ?_⟩
            rw [← h3, List.getLast?_append, hlast]
            rfl
    | false =>
      simp only [runLoop, Bool.false_eq_true, if_false] at h
      cases hr : removeM s (pathJoin root name) with
      | error e2 =>
        rw [hr] at h
        simp only [Option.some.injEq, Prod.mk.injEq] at h
        obtain ⟨h1, h2, h3⟩ := h
        subst h1
        refine ⟨PEv.removeC (pathJoin root name), removeM_err_shape _ _ _ hr, ?_⟩
        rw [← h3]
        rfl
      | ok sx =>
        rw [hr] at h
        simp only [] at h
        cases hr2 : runLoop recRemove root sx rest with
        | none =>
          rw [hr2] at h
          exact absurd h (by simp)
        | some val2 =>
          obtain ⟨r2, s2, tr2⟩ := val2
          rw [hr2] at h
          simp only [Option.some.injEq, Prod.mk.injEq] at h
          obtain ⟨h1, h2, h3⟩ := h
          subst h1
          obtain ⟨ev, hev, hlast⟩ := ih sx e s2 tr2 hr2
          refine ⟨ev, hev, ?_⟩
          rw [← h3]
          rw [show PEv.removeC (pathJoin root name) :: tr2 =
            [PEv.removeC (pathJoin root name)] ++ tr2 from rfl]
          rw [List.getLast?_append, hlast]
          rfl

/-- RemoveAll abort discipline at every fuel: when the fallback returns
an error, the trace ends at exactly the primitive call that produced that
error, so nothing was attempted after the first failure (no further
sibling, and no remove of the enclosing parent). -/
theorem removeAll_err_last : ∀ (fuel : Nat) (s : Sys) (p : String) (e : GoError)
    (s1 : Sys) (tr : List PEv),
    removeAllGo fuel s p = some (some e, s1, tr) →
    ∃ ev, errEvent e = some ev ∧ tr.getLast? = some ev := by
  intro fuel
  induction fuel with
  | zero =>
    intro s p e s1 tr h
    exact absurd h (by simp [removeAllGo])
  | succ fuel ih =>
    intro s p e s1 tr h
    unfold removeAllGo at h
    cases hstat : statM s p with
    | error e2 =>
      rw [hstat] at h
      simp only [Option.some.injEq, Prod.mk.injEq] at h
      obtain ⟨h1, h2, h3⟩ := h
      subst h1
      refine ⟨PEv.statC p, statM_err_shape _ _ _ hstat, ?_⟩
      rw [← h3]
      rfl
    | ok fi =>
      rw [hstat] at h
      simp only [] at h
      cases hdir : fi.isDir with
      | false =>
        rw [hdir] at h
        simp only [Bool.not_false, if_true] at h
        cases hrm : removeM s p with
        | error e2 =>
          rw [hrm] at h
          simp only [Option.some.injEq, Prod.mk.injEq] at h
          obtain ⟨h1, h2, h3⟩ := h
          subst h1
          refine ⟨PEv.removeC p, removeM_err_shape _ _ _ hrm, ?_⟩
          rw [← h3]
          rfl
        | ok sx =>
          rw [hrm] at h
          exact absurd h (by simp)
      | true =>
        rw [hdir] at h
        simp only [Bool.not_true, Bool.false_eq_true, if_false] at h
        cases hrd : readDirM s p with
        | error e2 =>
          rw [hrd] at h
          simp only [Option.some.injEq, Prod.mk.injEq] at h
          obtain ⟨h1, h2, h3⟩ := h
          subst h1
          refine ⟨PEv.readDirC p, readDirM_err_shape _ _ _ hrd, ?_⟩
          rw [← h3]
          rfl
        | ok files =>
          rw [hrd] at h
          simp only [] at h
          cases hrun : runLoop (removeAllGo fuel) p s files with
          | none =>
            rw [hrun] at h
            exact absurd h (by simp)
          | some val =>
            obtain ⟨oe, sx, trx⟩ := val
            rw [hrun] at h
            cases oe with
            | some e2 =>
              simp only [Option.some.injEq, Prod.mk.injEq] at h
              obtain ⟨h1, h2, h3⟩ := h
              subst h1
              obtain ⟨ev, hev, hlast⟩ := runLoop_err (removeAllGo fuel) p ih files s _ sx trx hrun
              refine ⟨ev, hev, ?_⟩
              rw [← h3]
              rw [show PEv.statC p :: PEv.readDirC p :: trx =
                [PEv.statC p, PEv.readDirC p] ++ trx from rfl]
              rw [List.getLast?_append, hlast]
              rfl
            | none =>
              simp only [] at h
              cases hrm : removeM sx p with
              | error e2 =>
                rw [hrm] at h
                simp only [Option.some.injEq, Prod.mk.injEq] at h
                obtain ⟨h1, h2, h3⟩ := h
                subst h1
                refine ⟨PEv.removeC p, removeM_err_shape _ _ _ hrm, ?_⟩
                rw [← h3]
                rw [show PEv.statC p :: PEv.readDirC p :: (trx ++ [PEv.removeC p]) =
                  (PEv.statC p :: PEv.readDirC p :: trx) ++ [PEv.removeC p] from by simp]
                rw [List.getLast?_concat]
              | ok s2 =>
                rw [hrm] at h
                exact absurd h (by simp)

/-- The entry at the target itself is dropped by eraseUnder, so a stat of
the target against the final state fails with not-exist. -/
theorem statM_eraseUnder_notExist (ents : List (Key × Node)) (q : String) :
    statM ⟨eraseUnder (elems q) ents, []⟩ q =
      Except.error (GoError.pathError "stat" q Err.errNotExist) := by
  unfold statM
  have hfe : findEnt (Sys.ents ⟨eraseUnder (elems q) ents, []⟩) (elems q) = none := by
    show findEnt (eraseUnder (elems q) ents) (elems q) = none
    unfold eraseUnder
    apply findEnt_filter_neg
    intro n
    have hp : (elems q) <+: (elems q) := List.prefix_refl _
    simp [underB, hp]
  rw [hfe]

/-- The wellformedness of the demo tree, used to instantiate the RemoveAll
theorem. -/
theorem demoWF : WFents demoSys.ents := by
  refine ⟨by decide, ?_, ?_⟩
  · intro k n hmem
    simp only [demoSys, demoEnts, List.mem_cons, List.not_mem_nil, or_false,
      Prod.mk.injEq] at hmem
    rcases hmem with ⟨h1, _⟩ | ⟨h1, _⟩ | ⟨h1, _⟩ | ⟨h1, _⟩ <;> subst h1 <;> decide
  · intro k n hmem
    simp only [demoSys, demoEnts, List.mem_cons, List.not_mem_nil, or_false,
      Prod.mk.injEq] at hmem
    rcases hmem with ⟨h1, _⟩ | ⟨h1, _⟩ | ⟨h1, _⟩ | ⟨h1, _⟩ <;> subst h1 <;> decide

/-- C3: over the modelled collaborator (single-level Remove plus directory
listing, no RemoveAllFS), the RemoveAll fallback (a) on any existing tree
with no failing removes erases exactly the subtree at the target including
the target itself, so a subsequent stat of the target fails with
not-exist; every removed path lies at or below the target, the removed
paths are exactly the keys at or below the target (as a permutation), and
removal is depth-first (no removed path is an ancestor of a later removed
one, so children are removed before their parent); and (b) whenever the
fallback returns an error, the trace ends at the primitive call that
produced that error, so after the first child failure no remaining sibling
was attempted and the parent was not removed. -/
theorem removeAll_depth_first_abort (fuel : Nat) :
    (∀ (s : Sys) (q : String) (qn : Node),
      WFents s.ents → s.frozen = [] → q ≠ "." →
      findEnt s.ents (elems q) = some qn →
      countUnder (elems q) s.ents < fuel →
      ∃ tr, removeAllGo fuel s q = some (none, ⟨eraseUnder (elems q) s.ents, []⟩, tr) ∧
        statM ⟨eraseUnder (elems q) s.ents, []⟩ q =
          Except.error (GoError.pathError "stat" q Err.errNotExist) ∧
        (∀ k ∈ removeKeys tr, elems q <+: k) ∧
        List.Perm (removeKeys tr) ((s.ents.filter (underB (elems q))).map (fun e => e.1)) ∧
        (removeKeys tr).Pairwise (fun a b => ¬ (a <+: b))) ∧
    (∀ (s : Sys) (q : String) (e : GoError) (s1 : Sys) (tr : List PEv),
      removeAllGo fuel s q = some (some e, s1, tr) →
      ∃ ev, errEvent e = some ev ∧ tr.getLast? = some ev) := by
  constructor
  · intro s q qn hwf hfz hdot hfind hcount
    obtain ⟨tr, hrun, hbound, hperm, hpw⟩ :=
      removeAll_spec_all fuel s q qn hwf hfz hdot hfind hcount
    exact ⟨tr, hrun, statM_eraseUnder_notExist s.ents q, hbound, hperm, hpw⟩
  · intro s q e s1 tr h
    exact removeAll_err_last fuel s q e s1 tr h

/-- C3 witness: on the demo tree, RemoveAll with fuel 5 on "a" removes the
whole tree (a, a/b, a/c, a/c/d) children first, and the subsequent stat
fails with not-exist; and on the frozen demo tree, where removing "a/c/d"
fails with a permission error, the run aborts with that error and its
trace ends exactly at the failing remove call. -/
theorem removeAll_depth_first_abort_witness :
    (∃ tr, removeAllGo 5 demoSys "a" =
        some (none, ⟨eraseUnder (elems "a") demoSys.ents, []⟩, tr) ∧
      statM ⟨eraseUnder (elems "a") demoSys.ents, []⟩ "a" =
        Except.error (GoError.pathError "stat" "a" Err.errNotExist) ∧
      (∀ k ∈ removeKeys tr, elems "a" <+: k) ∧
      List.Perm (removeKeys tr)
        ((demoSys.ents.filter (underB (elems "a"))).map (fun e => e.1)) ∧
      (removeKeys tr).Pairwise (fun a b => ¬ (a <+: b))) ∧
    (∃ ev, errEvent (GoError.pathError "remove" "a/c/d" Err.errPermission) = some ev ∧
      ([PEv.statC "a", PEv.readDirC "a", PEv.removeC "a/b", PEv.statC "a/c",
        PEv.readDirC "a/c", PEv.removeC "a/c/d"] : List PEv).getLast? = some ev) := by
  constructor
  · exact (removeAll_depth_first_abort 5).1 demoSys "a" ⟨true, 493⟩ demoWF rfl
      (by decide) (by decide) (by decide)
  · exact (removeAll_depth_first_abort 5).2 demoFrozenSys "a"
      (GoError.pathError "remove" "a/c/d" Err.errPermission)
      ⟨[(elems "a", ⟨true, 493⟩), (elems "a/c", ⟨true, 493⟩),
        (elems "a/c/d", ⟨false, 420⟩)], [elems "a/c/d"]⟩
      [PEv.statC "a", PEv.readDirC "a", PEv.removeC "a/b", PEv.statC "a/c",
       PEv.readDirC "a/c", PEv.removeC "a/c/d"]
      (by decide)

end Wrfs
